import Mathlib

/-!
Verification of the semantic/editing layer of the go.mod parser/editor in
marwan-at-work/vgop (src/modfile/rule.go).

The definitions below are a shallow embedding of the code in
src/modfile/rule.go.  External collaborators that are part of the
repository but not present under src/ (the syntax-tree helpers of
read.go, the semver package, ParseGopkgIn) and Go standard-library
helpers (strconv quoting, unicode.IsPrint, sort) are modelled from the
specification; every such definition carries a doc comment starting with
the word Modelled.
-/

namespace Modfile

/-- module.Version: a module path / version pair. -/
structure ModVersion where
  path : String
  version : String
deriving DecidableEq

/-- Embeds strings.HasPrefix via character lists. -/
def hasPfx (s p : String) : Bool :=
  p.data.isPrefixOf s.data

/-- Embeds strings.Contains via character lists: some suffix of the text
starts with the pattern. -/
def listHasSub (pat : List Char) : List Char → Bool
  | [] => pat.isPrefixOf []
  | c :: cs => pat.isPrefixOf (c :: cs) || listHasSub pat cs

/-- strings.Contains on strings. -/
def hasSub (s pat : String) : Bool :=
  listHasSub pat.data s.data

/-- Modelled (Go unicode.IsPrint): printable characters.  Control
characters (below 0x20 and DEL) are not printable; the ASCII space and
everything above are treated as printable, which agrees with Go on the
character sets that can occur in a go.mod token. -/
def isPrintChar (c : Char) : Bool :=
  32 ≤ c.toNat && c.toNat ≠ 127

/-- MustQuote (rule.go): s must be quoted to appear as a single token. -/
def MustQuote (s : String) : Bool :=
  s.data.any (fun c =>
    !isPrintChar c || c.toNat = 32 || c.toNat = 34 || c.toNat = 39 || c.toNat = 96)
  || s = "" || hasSub s "//" || hasSub s "/*"

/-- Modelled (Go strconv.Quote): a double-quoted form of s.  Only the
escapes relevant to printable tokens (backslash and double quote) are
modelled. -/
def goQuoteBody : List Char → List Char
  | [] => []
  | c :: cs =>
    if c.toNat = 34 then '\\' :: '"' :: goQuoteBody cs
    else if c.toNat = 92 then '\\' :: '\\' :: goQuoteBody cs
    else c :: goQuoteBody cs

/-- Modelled (Go strconv.Quote). -/
def goQuote (s : String) : String :=
  "\"" ++ String.mk (goQuoteBody s.data) ++ "\""

/-- AutoQuote (rule.go): s, quoted when required. -/
def AutoQuote (s : String) : String :=
  if MustQuote s then goQuote s else s

/-- Modelled (Go strconv.Unquote), inner loop: unescape the body of a
double-quoted literal up to the closing quote; fails on a stray quote,
a bad escape, or a missing closing quote. -/
def goUnquoteBody : List Char → Option (List Char)
  | [] => none
  | c :: cs =>
    if c.toNat = 34 then
      if cs = [] then some [] else none
    else if c.toNat = 92 then
      match cs with
      | [] => none
      | e :: cs' =>
        if e.toNat = 34 ∨ e.toNat = 92 then
          (goUnquoteBody cs').map (fun r => e :: r)
        else if e = 'n' then (goUnquoteBody cs').map (fun r => '\n' :: r)
        else if e = 't' then (goUnquoteBody cs').map (fun r => '\t' :: r)
        else none
    else (goUnquoteBody cs).map (fun r => c :: r)

/-- Modelled (Go strconv.Unquote) for double-quoted literals. -/
def goUnquote (s : String) : Option String :=
  match s.data with
  | c :: cs => if c.toNat = 34 then (goUnquoteBody cs).map String.mk else none
  | [] => none

instance {ε α : Type} [DecidableEq ε] [DecidableEq α] : DecidableEq (Except ε α) := by
  intro a b
  cases a <;> cases b <;>
    first
      | rename_i x y
        exact if h : x = y then .isTrue (by rw [h]) else .isFalse (fun hc => by cases hc; exact h rfl)
      | exact .isFalse (fun h => by cases h)

/-- parseString (rule.go): parses a possibly-quoted token, returning the
parsed value together with the re-written token (the source updates the
token in place to AutoQuote of the parsed value). -/
def parseString (t : String) : Except String (String × String) :=
  if hasPfx t "\"" then
    match goUnquote t with
    | none => .error "invalid syntax"
    | some u => .ok (u, AutoQuote u)
  else if t.data.any (fun c => c.toNat = 34 || c.toNat = 39 || c.toNat = 96) then
    .error "unquoted string cannot contain quote"
  else .ok (t, AutoQuote t)

/-- A token is clean when parseString is the identity on it: it is
unquoted, contains no quote character, and needs no quoting. -/
def cleanTok (t : String) : Prop := parseString t = .ok (t, t)

instance (t : String) : Decidable (cleanTok t) := by
  unfold cleanTok; infer_instance

/-! ## The semver model

The semver package of the repository is not under src/.  Following the
specification ("a Version Utility providing semantic-version syntax
validation, canonicalization, and major-component extraction", and
"metadata/build-suffix stripped per canonicalization rule") it is
modelled after semantic-version syntax: "v" MAJOR ["." MINOR ["."
PATCH]] ["-" PRERELEASE] ["+" BUILD], numeric identifiers without
leading zeros; Canonical completes missing minor/patch with 0 and strips
the build suffix; Major returns "v" followed by the major component. -/

/-- Modelled from the spec (semver package): take the leading digits. -/
def svTakeDigits : List Char → List Char × List Char
  | [] => ([], [])
  | c :: cs =>
    if '0' ≤ c && c ≤ '9' then
      let r := svTakeDigits cs
      (c :: r.1, r.2)
    else ([], c :: cs)

/-- Modelled from the spec (semver package): a valid numeric component
(nonempty digits, no leading zero unless the single digit 0). -/
def svGoodInt (ds : List Char) : Bool :=
  !ds.isEmpty && (ds.headD 'x' ≠ '0' || ds.length = 1)

/-- Modelled from the spec (semver package): identifier characters. -/
def svIsIdentChar (c : Char) : Bool :=
  ('0' ≤ c && c ≤ '9') || ('a' ≤ c && c ≤ 'z') || ('A' ≤ c && c ≤ 'Z') || c = '-'

/-- Modelled from the spec (semver package): split on dots. -/
def svSplitDots : List Char → List (List Char)
  | [] => [[]]
  | c :: cs =>
    match svSplitDots cs with
    | h :: t => if c = '.' then [] :: h :: t else (c :: h) :: t
    | [] => [[c]]

/-- Modelled from the spec (semver package): one prerelease/build
identifier; numeric prerelease identifiers carry no leading zeros. -/
def svIdentOk (allowNumZero : Bool) (id : List Char) : Bool :=
  !id.isEmpty && id.all svIsIdentChar &&
  (allowNumZero ||
    !(id.all (fun c => '0' ≤ c && c ≤ '9') && decide (1 < id.length) && id.headD 'x' = '0'))

/-- Parsed components of a semantic version (digits / identifier text,
without the separators). -/
structure SvParts where
  major : List Char
  minor : List Char
  patch : List Char
  pre : List Char
deriving DecidableEq

/-- Modelled from the spec (semver package): prerelease and build
suffix. Returns the prerelease characters when the suffix is valid. -/
def svParseTail (r : List Char) : Option (List Char) :=
  match r with
  | [] => some []
  | '-' :: rest =>
    let pre := rest.takeWhile (fun c => c ≠ '+')
    let r2 := rest.dropWhile (fun c => c ≠ '+')
    if !pre.isEmpty && (svSplitDots pre).all (svIdentOk false) then
      match r2 with
      | [] => some pre
      | '+' :: b =>
        if !b.isEmpty && (svSplitDots b).all (svIdentOk true) then some pre else none
      | _ => none
    else none
  | '+' :: b =>
    if !b.isEmpty && (svSplitDots b).all (svIdentOk true) then some [] else none
  | _ => none

/-- Modelled from the spec (semver package): full parse. -/
def svParse (v : String) : Option SvParts :=
  match v.data with
  | 'v' :: rest =>
    let maj := (svTakeDigits rest).1
    let r1 := (svTakeDigits rest).2
    if !svGoodInt maj then none else
    match r1 with
    | [] => some ⟨maj, ['0'], ['0'], []⟩
    | '.' :: r2 =>
      let mnr := (svTakeDigits r2).1
      let r3 := (svTakeDigits r2).2
      if !svGoodInt mnr then none else
      match r3 with
      | [] => some ⟨maj, mnr, ['0'], []⟩
      | '.' :: r4 =>
        let pat := (svTakeDigits r4).1
        let r5 := (svTakeDigits r4).2
        if !svGoodInt pat then none else
        (svParseTail r5).map (fun pre => ⟨maj, mnr, pat, pre⟩)
      | _ => none
    | _ => none
  | _ => none

/-- Modelled from the spec (semver package): syntax validity. -/
def svIsValid (v : String) : Bool :=
  (svParse v).isSome

/-- Modelled from the spec (semver package): canonical form — missing
minor/patch completed with 0, build metadata stripped, prerelease
kept. -/
def svCanonical (v : String) : String :=
  match svParse v with
  | none => ""
  | some p =>
    "v" ++ String.mk p.major ++ "." ++ String.mk p.minor ++ "." ++ String.mk p.patch ++
      (if p.pre.isEmpty then "" else "-" ++ String.mk p.pre)

/-- Modelled from the spec (semver package): major component, "v"
followed by the major digits ("" when invalid). -/
def svMajor (v : String) : String :=
  match svParse v with
  | none => ""
  | some p => "v" ++ String.mk p.major

/-- VersionFixer (rule.go): the injectable fix-hook. -/
def VersionFixer := String → String → Except String String

/-- parseVersion (rule.go): unquote the token, run the fix-hook when
present, validate as semver, rewrite the token to the canonical form.
Returns the canonical version together with the re-written token. -/
def parseVersion (path : String) (s : String) (fix : Option VersionFixer) :
    Except String (String × String) :=
  match parseString s with
  | .error e => .error e
  | .ok (t, _) =>
    let ft : Except String String :=
      match fix with
      | some fx => fx path t
      | none => .ok t
    match ft with
    | .error e => .error e
    | .ok t' =>
      if svIsValid t' then .ok (svCanonical t', svCanonical t')
      else .error "version must be of the form v1.2.3"

/-- Modelled from the spec: segment of a character list after the last
dot (used by the gopkg.in path convention). -/
def lastDotSeg (cs : List Char) : List Char :=
  cs.foldl (fun acc c => if c = '.' then [] else acc ++ [c]) []

/-- The final path element (rule.go uses p[strings.LastIndex(p, "/")+1:]). -/
def lastSlashSeg (cs : List Char) : List Char :=
  cs.foldl (fun acc c => if c = '/' then [] else acc ++ [c]) []

/-- isMajorVersion (rule.go): "v" followed by one or more digits. -/
def isMajorVersion (v : String) : Bool :=
  decide (2 ≤ v.data.length) && v.data.headD ' ' = 'v' &&
    (v.data.drop 1).all (fun c => '0' ≤ c && c ≤ '9')

/-- Modelled from the spec: ParseGopkgIn (gopkgin.go, part of the
repository but not under src/) — "a legacy dotted-host encoding that
embeds an explicit major version in a different syntax".  A gopkg.in
path embeds its major as a .vN suffix; the embedded major is returned
for paths using that encoding, and nothing for every other path. -/
def parseGopkgIn (p : String) : Option String :=
  if hasPfx p "gopkg.in/" then
    let seg := String.mk (lastDotSeg p.data)
    if isMajorVersion seg then some seg else none
  else none

/-- moduleMajorVersion (rule.go): the major version required by a module
path. -/
def moduleMajorVersion (p : String) : Except String String :=
  match parseGopkgIn p with
  | some major => .ok major
  | none =>
    let v := String.mk (lastSlashSeg p.data)
    if !isMajorVersion v then .ok "v1"
    else if v.data.getD 1 ' ' = '0' || v = "v1" then
      .error ("module path has invalid version number " ++ v)
    else .ok v

/-- The required-major computation exactly as claim C5 words it
(refinement reference, following the spec, not the source): reject only
a suffix of exactly v0 or exactly v1; return any other matching
suffix. -/
def requiredMajorClaimC5 (p : String) : Except String String :=
  match parseGopkgIn p with
  | some major => .ok major
  | none =>
    let v := String.mk (lastSlashSeg p.data)
    if !isMajorVersion v then .ok "v1"
    else if v = "v0" || v = "v1" then
      .error ("module path has invalid version number " ++ v)
    else .ok v

/-- The amended required-major computation: a matching final segment is
rejected when it is exactly v1 or when its first digit is 0 (v0, v00,
v01, v05, ...); any other matching segment is the required major. -/
def requiredMajorAmendedC5 (p : String) : Except String String :=
  match parseGopkgIn p with
  | some major => .ok major
  | none =>
    let v := String.mk (lastSlashSeg p.data)
    if !isMajorVersion v then .ok "v1"
    else if v = "v1" || hasPfx v "v0" then
      .error ("module path has invalid version number " ++ v)
    else .ok v

theorem c5_hasPfx_v0 (v : String) (h2 : isMajorVersion v = true) :
    (decide (v.data.getD 1 ' ' = '0')) = hasPfx v "v0" := by
  obtain ⟨cs⟩ := v
  unfold isMajorVersion at h2
  simp only [Bool.and_eq_true, decide_eq_true_eq] at h2
  rcases cs with _ | ⟨a, _ | ⟨b, rest⟩⟩
  · simp at h2
  · simp at h2
  · obtain ⟨⟨hlen, hhead⟩, hall⟩ := h2
    simp only [List.headD] at hhead
    subst hhead
    show (decide (b = '0')) = hasPfx ⟨'v' :: b :: rest⟩ "v0"
    by_cases hb : b = '0'
    · subst hb
      simp [hasPfx, List.isPrefixOf]
    · have h1 : List.isPrefixOf ['v', '0'] ('v' :: b :: rest) = false := by
        simp [List.isPrefixOf]
        exact fun h => absurd h.symm hb
      simp [hasPfx, h1, hb]

/-- C5, counterexample: for the path example.com/foo/v05, the final
segment v05 matches the explicit-major pattern and is neither exactly v0
nor exactly v1, so the claim says it is returned as the required major;
the code (moduleMajorVersion) rejects it, because it rejects every
matching segment whose first digit is 0, not only the exact segment
v0. -/
theorem c5_counterexample :
    moduleMajorVersion "example.com/foo/v05"
        = .error "module path has invalid version number v05" ∧
      requiredMajorClaimC5 "example.com/foo/v05" = .ok "v05" ∧
      isMajorVersion "v05" = true ∧ "v05" ≠ "v0" ∧ "v05" ≠ "v1" := by
  refine ⟨by decide, by decide, by decide, by decide, by decide⟩

/-- C5 (amended): for every path not using the legacy dotted-host
(gopkg.in-style) encoding, if the final path segment does not match the
explicit-major pattern (letter v followed by one or more digits) the
required major is v1; if the final segment is exactly v1, or matches the
pattern and begins with v0 (its first digit is 0: v0, v00, v01, v05,
...), the path is rejected as invalid; any other matching segment is
returned as the required major. -/
theorem c5_requiredMajor_amended (p : String) (h : parseGopkgIn p = none) :
    moduleMajorVersion p = requiredMajorAmendedC5 p := by
  unfold moduleMajorVersion requiredMajorAmendedC5
  rw [h]
  rcases hmv : isMajorVersion (String.mk (lastSlashSeg p.data)) with _ | _
  · simp [hmv]
  · simp only [hmv, Bool.not_true, Bool.false_eq_true, if_false]
    rw [← c5_hasPfx_v0 _ hmv, Bool.or_comm]

/-- C5 witness: the amended theorem at the concrete path
example.com/foo/v2. -/
theorem c5_witness :
    parseGopkgIn "example.com/foo/v2" = none ∧
      moduleMajorVersion "example.com/foo/v2"
        = requiredMajorAmendedC5 "example.com/foo/v2" :=
  ⟨by decide, c5_requiredMajor_amended "example.com/foo/v2" (by decide)⟩

/-! ## The syntax tree and the decoded file -/

/-- A syntax-tree line: its identity and its tokens.  The id doubles as
the stable handle that records keep to their line (the source keeps a
pointer) and as the line number reported in diagnostics. -/
structure Line where
  id : Nat
  tokens : List String
deriving DecidableEq

/-- A top-level statement (Expr in the source): a bare line, a
header-grouped block of nested lines, or a standalone comment block. -/
inductive Expr where
  | line (l : Line)
  | block (pos : Nat) (tokens : List String) (lines : List Line)
  | comment
deriving DecidableEq

/-- FileSyntax: the format-preserving tree (file name + statements). -/
structure FileTree where
  name : String
  stmts : List Expr
deriving DecidableEq

/-- The module statement record. -/
structure ModRec where
  mod : ModVersion
  syn : Option Nat
deriving DecidableEq

/-- A single require statement record. -/
structure ReqRec where
  mod : ModVersion
  syn : Option Nat
deriving DecidableEq

/-- A single exclude statement record. -/
structure ExclRec where
  mod : ModVersion
  syn : Option Nat
deriving DecidableEq

/-- A single replace statement record. -/
structure ReplRec where
  old : ModVersion
  new : ModVersion
  syn : Option Nat
deriving DecidableEq

/-- File (rule.go): the parsed, interpreted form of a go.mod file,
together with the running counter used to model fresh tree lines. -/
structure GoFile where
  module : Option ModRec
  require : List ReqRec
  exclude : List ExclRec
  replace : List ReplRec
  tree : FileTree
  nextId : Nat
deriving DecidableEq

/-- IsDirectoryPath (rule.go): relative, rooted, and drive-letter paths,
in both Unix and Windows syntax. -/
def IsDirectoryPath (ns : String) : Bool :=
  hasPfx ns "./" || hasPfx ns "../" || hasPfx ns "/" ||
  hasPfx ns ".\\" || hasPfx ns "..\\" || hasPfx ns "\\" ||
  (decide (2 ≤ ns.data.length) &&
    (let c0 := ns.data.headD ' '
     (('A' ≤ c0 && c0 ≤ 'Z') || ('a' ≤ c0 && c0 ≤ 'z')) && ns.data.getD 1 ' ' = ':'))

/-- Modelled (Go path/filepath): the separator of the host platform; the
repository is built and run on Unix hosts, where it is the slash. -/
def filepathSeparator : Char := '/'

/-- A "file:line: message" diagnostic. -/
def diag (f : GoFile) (pos : Nat) (msg : String) : String :=
  f.tree.name ++ ":" ++ toString pos ++ ": " ++ msg

/-! ## The directive decoder (File.add and the Parse loop) -/

/-- File.add (rule.go): decode one statement (verb + args) into typed
records; a rejected statement accumulates a diagnostic.  The source also
rewrites the argument tokens in place to their unquoted / canonical
forms; that rewriting touches no record and no diagnostic and is not
modelled here. -/
def addVerb (fix : Option VersionFixer) (st : GoFile × List String) (ln : Line)
    (verb : String) (args : List String) : GoFile × List String :=
  let f := st.1
  let errs := st.2
  if verb = "module" then
    match f.module with
    | some _ => (f, errs ++ [diag f ln.id "repeated module statement"])
    | none =>
      let f := { f with module := some ⟨⟨"", ""⟩, some ln.id⟩ }
      match args with
      | [a0] =>
        match parseString a0 with
        | .error e => (f, errs ++ [diag f ln.id ("invalid quoted string: " ++ e)])
        | .ok (s, _) => ({ f with module := some ⟨⟨s, ""⟩, some ln.id⟩ }, errs)
      | _ => (f, errs ++ [diag f ln.id "usage: module module/path [version]"])
  else if verb = "require" ∨ verb = "exclude" then
    match args with
    | [a0, a1] =>
      match parseString a0 with
      | .error e => (f, errs ++ [diag f ln.id ("invalid quoted string: " ++ e)])
      | .ok (s, _) =>
        match parseVersion s a1 fix with
        | .error e =>
          (f, errs ++ [diag f ln.id ("invalid module version " ++ goQuote a1 ++ ": " ++ e)])
        | .ok (v, _) =>
          match moduleMajorVersion s with
          | .error e => (f, errs ++ [diag f ln.id e])
          | .ok v1 =>
            if v1 ≠ svMajor v ∧ (v1 ≠ "v1" ∨ svMajor v ≠ "v0") then
              (f, errs ++ [diag f ln.id ("invalid module: " ++ s ++ " should be " ++ v1 ++
                ", not " ++ svMajor v ++ " (" ++ v ++ ")")])
            else if verb = "require" then
              ({ f with require := f.require ++ [⟨⟨s, v⟩, some ln.id⟩] }, errs)
            else
              ({ f with exclude := f.exclude ++ [⟨⟨s, v⟩, some ln.id⟩] }, errs)
    | _ => (f, errs ++ [diag f ln.id ("usage: " ++ verb ++ " module/path v1.2.3")])
  else if verb = "replace" then
    let usage := (f, errs ++ [diag f ln.id ("usage: " ++ verb ++
      " module/path v1.2.3 => other/module v1.4\n\t or " ++ verb ++
      " module/path v1.2.3 => ../local/directory")])
    let core : String → String → String → Option String → GoFile × List String :=
      fun a0 a1 a3 a4? =>
        match parseString a0 with
        | .error e => (f, errs ++ [diag f ln.id ("invalid quoted string: " ++ e)])
        | .ok (s, _) =>
          match parseVersion s a1 fix with
          | .error e =>
            (f, errs ++ [diag f ln.id ("invalid module version " ++ a1 ++ ": " ++ e)])
          | .ok (v, _) =>
            match moduleMajorVersion s with
            | .error e => (f, errs ++ [diag f ln.id e])
            | .ok v1 =>
              if v1 ≠ svMajor v ∧ (v1 ≠ "v1" ∨ svMajor v ≠ "v0") then
                (f, errs ++ [diag f ln.id ("invalid module: " ++ s ++ " should be " ++ v1 ++
                  ", not " ++ svMajor v ++ " (" ++ v ++ ")")])
              else
                match parseString a3 with
                | .error e => (f, errs ++ [diag f ln.id ("invalid quoted string: " ++ e)])
                | .ok (ns, _) =>
                  match a4? with
                  | none =>
                    if !IsDirectoryPath ns then
                      (f, errs ++ [diag f ln.id
                        "replacement module without version must be directory path (rooted or starting with ./ or ../)"])
                    else if filepathSeparator = '/' && hasSub ns "\\" then
                      (f, errs ++ [diag f ln.id
                        "replacement directory appears to be Windows path (on a non-windows system)"])
                    else
                      ({ f with replace := f.replace ++ [⟨⟨s, v⟩, ⟨ns, ""⟩, some ln.id⟩] }, errs)
                  | some a4 =>
                    match parseVersion ns a4 fix with
                    | .error e =>
                      (f, errs ++ [diag f ln.id ("invalid module version " ++ a4 ++ ": " ++ e)])
                    | .ok (nv, _) =>
                      if IsDirectoryPath ns then
                        (f, errs ++ [diag f ln.id ("replacement module directory path " ++
                          goQuote ns ++ " cannot have version")])
                      else
                        ({ f with replace := f.replace ++ [⟨⟨s, v⟩, ⟨ns, nv⟩, some ln.id⟩] }, errs)
    match args with
    | [a0, a1, sep, a3] => if sep = "=>" then core a0 a1 a3 none else usage
    | [a0, a1, sep, a3, a4] => if sep = "=>" then core a0 a1 a3 (some a4) else usage
    | _ => usage
  else
    (f, errs ++ [diag f ln.id ("unknown directive: " ++ verb)])

/-- Parse (rule.go), per-statement dispatch: bare lines by their first
token, known single-token block headers across their nested lines;
unknown directives and block types produce a diagnostic and are
skipped. -/
def decodeStmt (fix : Option VersionFixer) (st : GoFile × List String) :
    Expr → GoFile × List String
  | .line l =>
    match l.tokens with
    | v :: args => addVerb fix st l v args
    | [] => st
  | .block pos toks lines =>
    match toks with
    | [t] =>
      if t = "module" ∨ t = "require" ∨ t = "exclude" ∨ t = "replace" then
        lines.foldl (fun st l => addVerb fix st l t l.tokens) st
      else
        (st.1, st.2 ++ [diag st.1 pos ("unknown block type: " ++ t)])
    | _ =>
      (st.1, st.2 ++ [diag st.1 pos ("unknown block type: " ++ String.intercalate " " toks)])
  | .comment => st

/-- Parse (rule.go), statement loop: every statement is processed; the
loop never aborts. -/
def decodeStmts (fix : Option VersionFixer) (stmts : List Expr)
    (st : GoFile × List String) : GoFile × List String :=
  stmts.foldl (decodeStmt fix) st

/-- The line ids occurring in a statement list. -/
def lineIdsOf (stmts : List Expr) : List Nat :=
  stmts.foldr
    (fun e acc =>
      match e with
      | .line l => l.id :: acc
      | .block _ _ lines => lines.map (fun l => l.id) ++ acc
      | .comment => acc) []

/-- A fresh id bound for a tree. -/
def treeNextId (t : FileTree) : Nat :=
  (lineIdsOf t.stmts).foldr Nat.max 0 + 1

/-- Parse (rule.go): decode a whole tree; when any diagnostics
accumulated, the newline-joined aggregate error and no usable file. -/
def ParseTree (fix : Option VersionFixer) (t : FileTree) : Except String GoFile :=
  let st := decodeStmts fix t.stmts (⟨none, [], [], [], t, treeNextId t⟩, [])
  if st.2 = [] then .ok st.1 else .error (String.intercalate "\n" st.2)

/-- An empty decoded file over an empty tree, used as the starting state
of concrete examples. -/
def exF : GoFile := ⟨none, [], [], [], ⟨"go.mod", []⟩, 1⟩

/-- Every addVerb call leaves the previous diagnostics as a prefix, and
a call that produced a diagnostic created no require/exclude/replace
record and left the tree alone; only a module statement that passed the
repeated-module check may still have installed an empty Module record. -/
theorem addVerb_reject_preserves (fix : Option VersionFixer) (st : GoFile × List String)
    (ln : Line) (verb : String) (args : List String) :
    (∃ es, (addVerb fix st ln verb args).2 = st.2 ++ es) ∧
    ((addVerb fix st ln verb args).2 ≠ st.2 →
      (addVerb fix st ln verb args).1.require = st.1.require ∧
      (addVerb fix st ln verb args).1.exclude = st.1.exclude ∧
      (addVerb fix st ln verb args).1.replace = st.1.replace ∧
      (addVerb fix st ln verb args).1.tree = st.1.tree ∧
      ((addVerb fix st ln verb args).1.module = st.1.module ∨
        (verb = "module" ∧ st.1.module = none ∧
          (addVerb fix st ln verb args).1.module = some ⟨⟨"", ""⟩, some ln.id⟩))) := by
  unfold addVerb
  dsimp only
  repeat' split
  all_goals
    first
      | exact ⟨⟨[], by simp⟩, fun h => absurd rfl h⟩
      | (refine ⟨⟨_, rfl⟩, fun h => ?_⟩; simp_all)

theorem addVerb_errs_mono (fix : Option VersionFixer) (st : GoFile × List String)
    (ln : Line) (verb : String) (args : List String) :
    ∃ es, (addVerb fix st ln verb args).2 = st.2 ++ es :=
  (addVerb_reject_preserves fix st ln verb args).1

theorem foldlAddVerb_errs_mono (fix : Option VersionFixer) (t : String)
    (lines : List Line) :
    ∀ st : GoFile × List String,
      ∃ es, (lines.foldl (fun st l => addVerb fix st l t l.tokens) st).2 = st.2 ++ es := by
  induction lines with
  | nil => exact fun st => ⟨[], by simp⟩
  | cons l ls ih =>
    intro st
    obtain ⟨e1, h1⟩ := addVerb_errs_mono fix st l t l.tokens
    obtain ⟨e2, h2⟩ := ih (addVerb fix st l t l.tokens)
    exact ⟨e1 ++ e2, by rw [List.foldl_cons, h2, h1, List.append_assoc]⟩

theorem decodeStmt_errs_mono (fix : Option VersionFixer) (st : GoFile × List String)
    (e : Expr) : ∃ es, (decodeStmt fix st e).2 = st.2 ++ es := by
  cases e with
  | line l =>
    rcases hl : l.tokens with _ | ⟨v, args⟩
    · exact ⟨[], by simp [decodeStmt, hl]⟩
    · simpa [decodeStmt, hl] using addVerb_errs_mono fix st l v args
  | block pos toks lines =>
    rcases toks with _ | ⟨t, _ | ⟨t2, ts⟩⟩
    · exact ⟨[diag st.1 pos ("unknown block type: " ++ String.intercalate " " [])],
        by simp [decodeStmt]⟩
    · by_cases h : t = "module" ∨ t = "require" ∨ t = "exclude" ∨ t = "replace"
      · simpa [decodeStmt, h] using foldlAddVerb_errs_mono fix t lines st
      · exact ⟨[diag st.1 pos ("unknown block type: " ++ t)], by simp [decodeStmt, h]⟩
    · exact ⟨[diag st.1 pos ("unknown block type: " ++ String.intercalate " " (t :: t2 :: ts))],
        by simp [decodeStmt]⟩
  | comment => exact ⟨[], by simp [decodeStmt]⟩

theorem decodeStmts_errs_mono (fix : Option VersionFixer) (stmts : List Expr) :
    ∀ st : GoFile × List String, ∃ es, (decodeStmts fix stmts st).2 = st.2 ++ es := by
  induction stmts with
  | nil => exact fun st => ⟨[], by simp [decodeStmts]⟩
  | cons e rest ih =>
    intro st
    obtain ⟨e1, h1⟩ := decodeStmt_errs_mono fix st e
    obtain ⟨e2, h2⟩ := ih (decodeStmt fix st e)
    exact ⟨e1 ++ e2, by
      show (decodeStmts fix rest (decodeStmt fix st e)).2 = st.2 ++ (e1 ++ e2)
      rw [h2, h1, List.append_assoc]⟩

/-- C1: a require or exclude directive whose path token, version token,
and required major are individually valid is accepted (its record
appended, no diagnostic) exactly when the canonical version's semver
major equals the path's required major, with the single exception of an
implicit-v1 path (required major v1) accepting a v0 major as well;
otherwise it is rejected with the major-mismatch diagnostic and no
record. -/
theorem c1_major_gate (fix : Option VersionFixer) (st : GoFile × List String)
    (ln : Line) (verb a0 a1 s v v1 : String)
    (hverb : verb = "require" ∨ verb = "exclude")
    (hs : parseString a0 = .ok (s, AutoQuote s))
    (hv : parseVersion s a1 fix = .ok (v, v))
    (hm : moduleMajorVersion s = .ok v1) :
    addVerb fix st ln verb [a0, a1] =
      if v1 = svMajor v ∨ (v1 = "v1" ∧ svMajor v = "v0") then
        (if verb = "require" then
          { st.1 with require := st.1.require ++ [⟨⟨s, v⟩, some ln.id⟩] }
        else
          { st.1 with exclude := st.1.exclude ++ [⟨⟨s, v⟩, some ln.id⟩] },
         st.2)
      else
        (st.1, st.2 ++ [diag st.1 ln.id ("invalid module: " ++ s ++ " should be " ++ v1 ++
          ", not " ++ svMajor v ++ " (" ++ v ++ ")")]) := by
  have hnm : verb ≠ "module" := by
    rcases hverb with h | h <;> subst h <;> decide
  unfold addVerb
  dsimp only
  rw [if_neg hnm, if_pos hverb]
  simp only [hs, hv, hm]
  by_cases hcond : v1 = svMajor v ∨ (v1 = "v1" ∧ svMajor v = "v0")
  · rw [if_pos hcond]
    have hno : ¬ (v1 ≠ svMajor v ∧ (v1 ≠ "v1" ∨ svMajor v ≠ "v0")) := by tauto
    rw [if_neg hno]
    split <;> rfl
  · rw [if_neg hcond]
    have hyes : v1 ≠ svMajor v ∧ (v1 ≠ "v1" ∨ svMajor v ≠ "v0") := by tauto
    rw [if_pos hyes]

/-- C1 witness: for path example.com/foo/v2 the version v2.0.0 is
accepted (and, evaluated directly, all the further examples of the claim
hold). -/
theorem c1_witness :
    addVerb none (exF, []) ⟨1, []⟩ "require" ["example.com/foo/v2", "v2.0.0"] =
      ({ exF with require := [⟨⟨"example.com/foo/v2", "v2.0.0"⟩, some 1⟩] }, []) ∧
    (addVerb none (exF, []) ⟨1, []⟩ "require" ["example.com/foo/v2", "v1.9.0"]).1.require
      = [] ∧
    (addVerb none (exF, []) ⟨1, []⟩ "require" ["example.com/foo/v2", "v1.9.0"]).2 ≠ [] ∧
    (addVerb none (exF, []) ⟨1, []⟩ "require" ["example.com/foo", "v0.9.0"]).2 = [] ∧
    (addVerb none (exF, []) ⟨1, []⟩ "require" ["example.com/foo", "v1.0.0"]).2 = [] :=
  ⟨(c1_major_gate none (exF, []) ⟨1, []⟩ "require" "example.com/foo/v2" "v2.0.0"
      "example.com/foo/v2" "v2.0.0" "v2" (Or.inl rfl) (by decide) (by decide)
      (by decide)).trans (by decide),
    by decide, by decide, by decide, by decide⟩

/-- C6, counterexample: the bare statement "module a b" is rejected with
a wrong-argument-count diagnostic, yet a Module typed record is created
for it — the source installs f.Module before checking the argument
count, so a rejected module statement does create a typed record,
contradicting the claim that no record is created for any rejected
statement. -/
theorem c6_counterexample :
    (addVerb none (exF, []) ⟨1, ["module", "a", "b"]⟩ "module" ["a", "b"]).2
      = ["go.mod:1: usage: module module/path [version]"] ∧
    (addVerb none (exF, []) ⟨1, ["module", "a", "b"]⟩ "module" ["a", "b"]).1.module
      = some ⟨⟨"", ""⟩, some 1⟩ :=
  ⟨by decide, by decide⟩

/-- C6 (amended): a statement the decoder rejects with a diagnostic adds
no Require, Exclude, or Replace record, and the Module record is
unchanged as well — except that a module statement that passes the
repeated-module check and is then rejected (wrong argument count or
invalid quoting) still installs a Module record with an empty path;
decoding of all remaining statements continues unconditionally, and
diagnostics only accumulate. -/
theorem c6_reject_no_record_amended (fix : Option VersionFixer)
    (st st0 st1 : GoFile × List String) (ln : Line) (verb : String)
    (args : List String) (e : Expr) (rest stmts : List Expr)
    (hrej : (addVerb fix st ln verb args).2 ≠ st.2) :
    (addVerb fix st ln verb args).1.require = st.1.require ∧
    (addVerb fix st ln verb args).1.exclude = st.1.exclude ∧
    (addVerb fix st ln verb args).1.replace = st.1.replace ∧
    ((addVerb fix st ln verb args).1.module = st.1.module ∨
      (verb = "module" ∧ st.1.module = none ∧
        (addVerb fix st ln verb args).1.module = some ⟨⟨"", ""⟩, some ln.id⟩)) ∧
    decodeStmts fix (e :: rest) st0 = decodeStmts fix rest (decodeStmt fix st0 e) ∧
    (∃ es, (addVerb fix st ln verb args).2 = st.2 ++ es) ∧
    (∃ es, (decodeStmts fix stmts st1).2 = st1.2 ++ es) := by
  obtain ⟨hmono, hpres⟩ := addVerb_reject_preserves fix st ln verb args
  obtain ⟨h1, h2, h3, h4, h5⟩ := hpres hrej
  exact ⟨h1, h2, h3, h5, rfl, hmono, decodeStmts_errs_mono fix stmts st1⟩

/-- C6 witness: the amended theorem at the rejected statement
"bogus one two" over the empty starting state. -/
theorem c6_witness :
    (addVerb none (exF, []) ⟨1, []⟩ "bogus" ["one", "two"]).1.require = (exF, ([] : List String)).1.require ∧
    (addVerb none (exF, []) ⟨1, []⟩ "bogus" ["one", "two"]).1.exclude = (exF, ([] : List String)).1.exclude ∧
    (addVerb none (exF, []) ⟨1, []⟩ "bogus" ["one", "two"]).1.replace = (exF, ([] : List String)).1.replace ∧
    ((addVerb none (exF, []) ⟨1, []⟩ "bogus" ["one", "two"]).1.module = (exF, ([] : List String)).1.module ∨
      (("bogus" : String) = "module" ∧ (exF, ([] : List String)).1.module = none ∧
        (addVerb none (exF, []) ⟨1, []⟩ "bogus" ["one", "two"]).1.module = some ⟨⟨"", ""⟩, some 1⟩)) ∧
    decodeStmts none (Expr.comment :: []) (exF, []) = decodeStmts none [] (decodeStmt none (exF, []) Expr.comment) ∧
    (∃ es, (addVerb none (exF, []) ⟨1, []⟩ "bogus" ["one", "two"]).2 = [] ++ es) ∧
    (∃ es, (decodeStmts none [] (exF, ([] : List String))).2 = [] ++ es) :=
  c6_reject_no_record_amended none (exF, []) (exF, []) (exF, []) ⟨1, []⟩ "bogus"
    ["one", "two"] Expr.comment [] [] (by decide)

/-- C9: for a replace directive whose left side (old path and version)
is valid and passes the major gate, the right-hand side is gated as the
claim states: with 4 arguments a non-directory path is rejected (and a
backslash-free directory path accepted); with 5 arguments the 5th is
validated as a version, and a directory-style 4th argument is rejected
(a non-directory one accepted). -/
theorem c9_replace_rhs (fix : Option VersionFixer) (st : GoFile × List String)
    (ln : Line) (a0 a1 a3 a4 s v v1 ns : String)
    (hs : parseString a0 = .ok (s, AutoQuote s))
    (hv : parseVersion s a1 fix = .ok (v, v))
    (hm : moduleMajorVersion s = .ok v1)
    (hmaj : v1 = svMajor v ∨ (v1 = "v1" ∧ svMajor v = "v0"))
    (hns : parseString a3 = .ok (ns, AutoQuote ns)) :
    (IsDirectoryPath ns = false →
      addVerb fix st ln "replace" [a0, a1, "=>", a3] =
        (st.1, st.2 ++ [diag st.1 ln.id
          "replacement module without version must be directory path (rooted or starting with ./ or ../)"])) ∧
    (IsDirectoryPath ns = true → hasSub ns "\\" = false →
      addVerb fix st ln "replace" [a0, a1, "=>", a3] =
        ({ st.1 with replace := st.1.replace ++ [⟨⟨s, v⟩, ⟨ns, ""⟩, some ln.id⟩] }, st.2)) ∧
    (∀ e, parseVersion ns a4 fix = .error e →
      addVerb fix st ln "replace" [a0, a1, "=>", a3, a4] =
        (st.1, st.2 ++ [diag st.1 ln.id ("invalid module version " ++ a4 ++ ": " ++ e)])) ∧
    (∀ nv, parseVersion ns a4 fix = .ok (nv, nv) → IsDirectoryPath ns = true →
      addVerb fix st ln "replace" [a0, a1, "=>", a3, a4] =
        (st.1, st.2 ++ [diag st.1 ln.id ("replacement module directory path " ++
          goQuote ns ++ " cannot have version")])) ∧
    (∀ nv, parseVersion ns a4 fix = .ok (nv, nv) → IsDirectoryPath ns = false →
      addVerb fix st ln "replace" [a0, a1, "=>", a3, a4] =
        ({ st.1 with replace := st.1.replace ++ [⟨⟨s, v⟩, ⟨ns, nv⟩, some ln.id⟩] }, st.2)) := by
  have hno : ¬ (v1 ≠ svMajor v ∧ (v1 ≠ "v1" ∨ svMajor v ≠ "v0")) := by tauto
  have e1 : ¬ ("replace" : String) = "module" := by decide
  have e2 : ¬ (("replace" : String) = "require" ∨ ("replace" : String) = "exclude") := by decide
  have e3 : ("replace" : String) = "replace" := rfl
  have e4 : ("=>" : String) = "=>" := rfl
  refine ⟨?_, ?_, ?_, ?_, ?_⟩
  · intro hdir
    unfold addVerb
    dsimp only
    rw [if_neg e1, if_neg e2, if_pos e3]
    rw [if_pos e4]
    simp only [hs, hv, hm, hns, if_neg hno, hdir]
    rfl
  · intro hdir hwin
    unfold addVerb
    dsimp only
    rw [if_neg e1, if_neg e2, if_pos e3]
    rw [if_pos e4]
    simp only [hs, hv, hm, hns, if_neg hno, hdir, hwin]
    rfl
  · intro e he
    unfold addVerb
    dsimp only
    rw [if_neg e1, if_neg e2, if_pos e3]
    rw [if_pos e4]
    simp only [hs, hv, hm, hns, if_neg hno, he]
  · intro nv hnv hdir
    unfold addVerb
    dsimp only
    rw [if_neg e1, if_neg e2, if_pos e3]
    rw [if_pos e4]
    simp only [hs, hv, hm, hns, if_neg hno, hnv, hdir]
    rfl
  · intro nv hnv hdir
    unfold addVerb
    dsimp only
    rw [if_neg e1, if_neg e2, if_pos e3]
    rw [if_pos e4]
    simp only [hs, hv, hm, hns, if_neg hno, hnv, hdir]
    rfl

/-- C9 witness: the right-hand side ./local is accepted for a
4-argument replace (via the theorem), and, evaluated directly, the same
directive with a bare module path right-hand side is rejected. -/
theorem c9_witness :
    addVerb none (exF, []) ⟨2, []⟩ "replace" ["example.com/old", "v1.0.0", "=>", "./local"] =
      ({ exF with replace := exF.replace ++
          [⟨⟨"example.com/old", "v1.0.0"⟩, ⟨"./local", ""⟩, some 2⟩] }, []) ∧
    (addVerb none (exF, []) ⟨2, []⟩ "replace"
      ["example.com/old", "v1.0.0", "=>", "example.com/new"]).2
      = ["go.mod:2: replacement module without version must be directory path (rooted or starting with ./ or ../)"] ∧
    (addVerb none (exF, []) ⟨2, []⟩ "replace"
      ["example.com/old", "v1.0.0", "=>", "example.com/new"]).1.replace = [] :=
  ⟨(c9_replace_rhs none (exF, []) ⟨2, []⟩ "example.com/old" "v1.0.0" "./local" "v1.4.0"
      "example.com/old" "v1.0.0" "v1" "./local" (by decide) (by decide) (by decide)
      (Or.inl (by decide)) (by decide)).2.1 (by decide) (by decide),
    by decide, by decide⟩

/-! ## Syntax-tree edit helpers

The syntax-tree mutation helpers live in read.go, which is part of the
repository but not under src/; they are modelled from the spec: records
hold a stable handle to their line, updating a line rewrites its tokens
(inside a block the leading verb token is not repeated), removing a line
clears its tokens (the tombstone-then-compact technique of the spec),
and a new line is appended at the end, or inserted right after a hinted
neighbouring line. -/

/-- Apply a token-level rewrite to every line of the tree; the Bool
argument tells the rewrite whether the line sits inside a block. -/
def mapLines (g : Bool → Line → Line) (stmts : List Expr) : List Expr :=
  stmts.map (fun e =>
    match e with
    | .line l => .line (g false l)
    | .block pos btoks lines => .block pos btoks (lines.map (g true))
    | .comment => .comment)

/-- mapLines on a whole tree. -/
def mapLinesT (g : Bool → Line → Line) (t : FileTree) : FileTree :=
  { t with stmts := mapLines g t.stmts }

/-- Modelled from the spec (read.go updateLine): rewrite the tokens of
the line a record points at; a line nested in a block does not repeat
the verb token. -/
def updateLine (t : FileTree) (syn : Option Nat) (tokens : List String) : FileTree :=
  match syn with
  | none => t
  | some id =>
    mapLinesT (fun inB l =>
      if l.id = id then ⟨l.id, if inB then tokens.drop 1 else tokens⟩ else l) t

/-- Modelled from the spec (read.go removeLine): clear the tokens of the
line a record points at; the stale node is physically dropped only by
the explicit cleanup pass. -/
def removeLine (t : FileTree) (syn : Option Nat) : FileTree :=
  match syn with
  | none => t
  | some id => mapLinesT (fun _ l => if l.id = id then ⟨l.id, []⟩ else l) t

/-- Does a line with this id occur in the line list? -/
def linesContain (hint : Nat) (lines : List Line) : Bool :=
  lines.any (fun l => l.id = hint)

/-- Does a line with this id occur in the statement list? -/
def treeHasLine (hint : Nat) : List Expr → Bool
  | [] => false
  | .line l :: rest => l.id = hint || treeHasLine hint rest
  | .block _ _ lines :: rest => linesContain hint lines || treeHasLine hint rest
  | .comment :: rest => treeHasLine hint rest

/-- Insert a new line right after the hinted one in a line list. -/
def insertAfterInLines (hint id : Nat) (tokens : List String) : List Line → List Line
  | [] => []
  | l :: ls =>
    if l.id = hint then l :: ⟨id, tokens⟩ :: ls
    else l :: insertAfterInLines hint id tokens ls

/-- Insert a new line right after the hinted one in the statement list
(inside a block the leading verb token is not repeated). -/
def addLineWithHint (hint id : Nat) (tokens : List String) : List Expr → List Expr
  | [] => []
  | .line l :: rest =>
    if l.id = hint then .line l :: .line ⟨id, tokens⟩ :: rest
    else .line l :: addLineWithHint hint id tokens rest
  | .block pos btoks lines :: rest =>
    if linesContain hint lines then
      .block pos btoks (insertAfterInLines hint id (tokens.drop 1) lines) :: rest
    else .block pos btoks lines :: addLineWithHint hint id tokens rest
  | .comment :: rest => .comment :: addLineWithHint hint id tokens rest

/-- Modelled from the spec (read.go addLine): "insert after node X if
given, else append at end". -/
def addLine (t : FileTree) (hint : Option Nat) (id : Nat) (tokens : List String) :
    FileTree :=
  match hint with
  | none => { t with stmts := t.stmts ++ [.line ⟨id, tokens⟩] }
  | some h =>
    if treeHasLine h t.stmts then { t with stmts := addLineWithHint h id tokens t.stmts }
    else { t with stmts := t.stmts ++ [.line ⟨id, tokens⟩] }

/-! ## The edit engine -/

/-- AddNewRequire (rule.go): append a fresh require record together with
its tree line. -/
def addNewRequire (f : GoFile) (path vers : String) : GoFile :=
  { f with
    require := f.require ++ [⟨⟨path, vers⟩, some f.nextId⟩],
    tree := addLine f.tree none f.nextId ["require", AutoQuote path, vers],
    nextId := f.nextId + 1 }

/-- AddRequire (rule.go), record loop: while the need flag is set the
first record whose path matches is updated in place (record and tree
line); afterwards every further match is tombstoned (record blanked,
tree line removed). -/
def addReqLoop (path vers : String) (need : Bool) :
    List ReqRec → FileTree → List ReqRec × FileTree × Bool
  | [], t => ([], t, need)
  | r :: rs, t =>
    if r.mod.path = path then
      if need then
        let res := addReqLoop path vers false rs (updateLine t r.syn ["require", AutoQuote path, vers])
        (⟨⟨r.mod.path, vers⟩, r.syn⟩ :: res.1, res.2)
      else
        let res := addReqLoop path vers false rs (removeLine t r.syn)
        (⟨⟨"", ""⟩, none⟩ :: res.1, res.2)
    else
      let res := addReqLoop path vers need rs t
      (r :: res.1, res.2)

/-- AddRequire (rule.go). -/
def addRequire (f : GoFile) (path vers : String) : GoFile :=
  let res := addReqLoop path vers true f.require f.tree
  if res.2.2 then
    addNewRequire { f with require := res.1, tree := res.2.1 } path vers
  else
    { f with require := res.1, tree := res.2.1 }

/-- AddExclude (rule.go), scan loop: stop (no-op) at an exact match,
remembering the most recent line for the same path as placement hint. -/
def exclScan (path vers : String) : List ExclRec → Option Nat → Option (Option Nat)
  | [], hint => some hint
  | x :: xs, hint =>
    if x.mod.path = path ∧ x.mod.version = vers then none
    else exclScan path vers xs (if x.mod.path = path then x.syn else hint)

/-- AddExclude (rule.go). -/
def addExclude (f : GoFile) (path vers : String) : GoFile :=
  match exclScan path vers f.exclude none with
  | none => f
  | some hint =>
    { f with
      exclude := f.exclude ++ [⟨⟨path, vers⟩, some f.nextId⟩],
      tree := addLine f.tree hint f.nextId ["exclude", AutoQuote path, vers],
      nextId := f.nextId + 1 }

/-- The exclude scan stops (returns none) exactly when an exact
(path, version) record exists. -/
theorem exclScan_none_iff (path vers : String) (xs : List ExclRec) :
    ∀ hint, exclScan path vers xs hint = none
      ↔ ∃ x ∈ xs, x.mod.path = path ∧ x.mod.version = vers := by
  induction xs with
  | nil => intro hint; simp [exclScan]
  | cons x xs ih =>
    intro hint
    by_cases hx : x.mod.path = path ∧ x.mod.version = vers
    · simp [exclScan, hx]
    · rw [exclScan, if_neg hx, ih]
      constructor
      · rintro ⟨y, hy, hk⟩
        exact ⟨y, List.mem_cons_of_mem _ hy, hk⟩
      · rintro ⟨y, hy, hk⟩
        rcases List.mem_cons.mp hy with rfl | hy
        · exact absurd hk hx
        · exact ⟨y, hy, hk⟩

/-- After addExclude an exact record always exists. -/
theorem addExclude_mem (f : GoFile) (path vers : String) :
    ∃ x ∈ (addExclude f path vers).exclude,
      x.mod.path = path ∧ x.mod.version = vers := by
  unfold addExclude
  rcases hscan : exclScan path vers f.exclude none with _ | hint
  · obtain ⟨x, hx, hk⟩ := (exclScan_none_iff path vers f.exclude none).mp hscan
    exact ⟨x, hx, hk⟩
  · exact ⟨⟨⟨path, vers⟩, some f.nextId⟩, by simp, rfl, rfl⟩

/-- C8, counterexample: from a starting state that already holds two
Exclude records for the pair, addExclude is a no-op (twice), so two
records remain — not exactly one as the claim states for any starting
state. -/
theorem c8_counterexample :
    (addExclude (addExclude
        { exF with exclude := [⟨⟨"p", "v1.0.0"⟩, some 1⟩, ⟨⟨"p", "v1.0.0"⟩, some 2⟩] }
        "p" "v1.0.0") "p" "v1.0.0").exclude.countP
      (fun x => x.mod.path = "p" ∧ x.mod.version = "v1.0.0") = 2 := by
  decide

/-- C8 (amended): addExclude(path, version) is a no-op when an Exclude
record with exactly that pair already exists and otherwise appends
exactly one new record and tree line; a second identical call never
changes the state further (idempotence, from any starting state), and
from any starting state holding at most one Exclude record for the
pair, two identical calls leave exactly one such record. -/
theorem c8_addExclude_amended (f : GoFile) (path vers : String)
    (h : f.exclude.countP (fun x => x.mod.path = path ∧ x.mod.version = vers) ≤ 1) :
    (∀ g : GoFile, addExclude (addExclude g path vers) path vers = addExclude g path vers) ∧
    (addExclude (addExclude f path vers) path vers).exclude.countP
      (fun x => x.mod.path = path ∧ x.mod.version = vers) = 1 := by
  have hidem : ∀ g : GoFile, addExclude (addExclude g path vers) path vers
      = addExclude g path vers := by
    intro g
    obtain ⟨x, hx, hk⟩ := addExclude_mem g path vers
    have hnone : exclScan path vers (addExclude g path vers).exclude none = none :=
      (exclScan_none_iff path vers _ none).mpr ⟨x, hx, hk⟩
    conv_lhs => rw [addExclude]
    rw [hnone]
  refine ⟨hidem, ?_⟩
  rw [hidem f]
  unfold addExclude
  rcases hscan : exclScan path vers f.exclude none with _ | hint
  · simp only [hscan]
    obtain ⟨x, hx, hk⟩ := (exclScan_none_iff path vers f.exclude none).mp hscan
    have hpos : 0 < f.exclude.countP (fun x => x.mod.path = path ∧ x.mod.version = vers) := by
      rw [List.countP_pos_iff]
      exact ⟨x, hx, by simp [hk.1, hk.2]⟩
    omega
  · simp only [hscan]
    have hzero : f.exclude.countP (fun x => x.mod.path = path ∧ x.mod.version = vers) = 0 := by
      rw [List.countP_eq_zero]
      intro x hx
      simp only [decide_eq_true_eq]
      intro hk
      have hex : ∃ x ∈ f.exclude, x.mod.path = path ∧ x.mod.version = vers := ⟨x, hx, hk⟩
      have hn := (exclScan_none_iff path vers f.exclude none).mpr hex
      rw [hscan] at hn
      exact Option.noConfusion hn
    simp [List.countP_append, hzero, List.countP_cons]
    rw [List.countP_eq_zero] at hzero
    intro a ha hp hv
    exact hzero a ha (by simp [hp, hv])

/-- C8 witness: the amended theorem starting from the empty file. -/
theorem c8_witness :
    (∀ g : GoFile, addExclude (addExclude g "p" "v1.0.0") "p" "v1.0.0"
      = addExclude g "p" "v1.0.0") ∧
    (addExclude (addExclude exF "p" "v1.0.0") "p" "v1.0.0").exclude.countP
      (fun x => x.mod.path = "p" ∧ x.mod.version = "v1.0.0") = 1 :=
  c8_addExclude_amended exF "p" "v1.0.0" (by decide)

theorem mapLines_id (stmts : List Expr) : mapLines (fun _ l => l) stmts = stmts := by
  induction stmts with
  | nil => rfl
  | cons e rest ih =>
    cases e <;> simp only [mapLines, List.map_cons] at ih ⊢ <;>
      simp_all [List.map_id]

theorem mapLines_congr (g h : Bool → Line → Line) (hgh : ∀ inB l, g inB l = h inB l)
    (stmts : List Expr) : mapLines g stmts = mapLines h stmts := by
  unfold mapLines
  apply List.map_congr_left
  intro e he
  cases e <;> simp [hgh]

theorem mapLines_comp (g h : Bool → Line → Line) (stmts : List Expr) :
    mapLines g (mapLines h stmts) = mapLines (fun inB l => g inB (h inB l)) stmts := by
  unfold mapLines
  rw [List.map_map]
  apply List.map_congr_left
  intro e he
  cases e <;> simp [List.map_map]

theorem mapLinesT_id (t : FileTree) : mapLinesT (fun _ l => l) t = t := by
  unfold mapLinesT
  rw [mapLines_id]

theorem mapLinesT_congr (g h : Bool → Line → Line) (hgh : ∀ inB l, g inB l = h inB l)
    (t : FileTree) : mapLinesT g t = mapLinesT h t := by
  unfold mapLinesT
  rw [mapLines_congr g h hgh]

theorem mapLinesT_comp (g h : Bool → Line → Line) (t : FileTree) :
    mapLinesT g (mapLinesT h t) = mapLinesT (fun inB l => g inB (h inB l)) t := by
  unfold mapLinesT
  simp [mapLines_comp]

theorem updateLine_eq (t : FileTree) (syn : Option Nat) (tokens : List String) :
    updateLine t syn tokens = mapLinesT (fun inB l =>
      if syn = some l.id then ⟨l.id, if inB then tokens.drop 1 else tokens⟩ else l) t := by
  cases syn with
  | none =>
    rw [updateLine]
    rw [mapLinesT_congr _ (fun _ l => l) (by intro inB l; simp), mapLinesT_id]
  | some id =>
    rw [updateLine]
    apply mapLinesT_congr
    intro inB l
    by_cases h : l.id = id
    · simp [h]
    · have h2 : ¬ id = l.id := fun hc => h hc.symm
      simp [h, h2]

theorem removeLine_eq (t : FileTree) (syn : Option Nat) :
    removeLine t syn = mapLinesT (fun _ l =>
      if syn = some l.id then ⟨l.id, []⟩ else l) t := by
  cases syn with
  | none =>
    rw [removeLine]
    rw [mapLinesT_congr _ (fun _ l => l) (by intro inB l; simp), mapLinesT_id]
  | some id =>
    rw [removeLine]
    apply mapLinesT_congr
    intro inB l
    by_cases h : l.id = id
    · simp [h]
    · have h2 : ¬ id = l.id := fun hc => h hc.symm
      simp [h, h2]



/-- The per-line effect of tombstoning the tree lines of all records
matching the path. -/
def removeEffect (path : String) (rs : List ReqRec) : Bool → Line → Line :=
  fun _ l =>
    if (rs.filter (fun r => r.mod.path = path)).any (fun r => r.syn = some l.id) then
      ⟨l.id, []⟩
    else l

/-- The per-line effect of one addRequire call that found a first match
r0: the lines of the later matching records are cleared, the line of r0
is rewritten to the new require tokens, everything else untouched. -/
def addReqEffect (path vers : String) (r0 : ReqRec) (later : List ReqRec) :
    Bool → Line → Line :=
  fun inB l =>
    if later.any (fun r => r.syn = some l.id) then ⟨l.id, []⟩
    else if r0.syn = some l.id then
      ⟨l.id, if inB then [AutoQuote path, vers] else ["require", AutoQuote path, vers]⟩
    else l

theorem addReqLoop_tree_false (path vers : String) (rs : List ReqRec) :
    ∀ t, (addReqLoop path vers false rs t).2.1 = mapLinesT (removeEffect path rs) t := by
  induction rs with
  | nil =>
    intro t
    rw [addReqLoop]
    show t = mapLinesT (removeEffect path []) t
    rw [mapLinesT_congr _ (fun _ l => l) (by intro inB l; simp [removeEffect]), mapLinesT_id]
  | cons r rs ih =>
    intro t
    by_cases hr : r.mod.path = path
    · rw [addReqLoop, if_pos hr, if_neg (by decide : ¬ ((false : Bool) = true))]
      dsimp only
      rw [ih (removeLine t r.syn), removeLine_eq, mapLinesT_comp]
      apply mapLinesT_congr
      intro inB l
      by_cases h1 : r.syn = some l.id <;>
        by_cases h2 : (rs.filter (fun r => r.mod.path = path)).any
          (fun r => r.syn = some l.id) = true <;>
        simp [removeEffect, List.filter_cons, hr, h1, h2]
    · rw [addReqLoop, if_neg hr]
      dsimp only
      rw [ih t]
      apply mapLinesT_congr
      intro inB l
      simp [removeEffect, List.filter_cons, hr]

theorem addReqLoop_tree_true (path vers : String) (rs : List ReqRec) :
    ∀ t r0, rs.find? (fun r => r.mod.path = path) = some r0 →
      (addReqLoop path vers true rs t).2.1
        = mapLinesT (addReqEffect path vers r0
            ((rs.filter (fun r => r.mod.path = path)).drop 1)) t := by
  induction rs with
  | nil => intro t r0 h; simp [List.find?] at h
  | cons r rs ih =>
    intro t r0 h
    by_cases hr : r.mod.path = path
    · have hr0 : r0 = r := by
        rw [List.find?_cons_of_pos _ (by simpa using hr)] at h
        exact (Option.some.inj h).symm
      subst hr0
      rw [addReqLoop, if_pos hr, if_pos (rfl : (true : Bool) = true)]
      dsimp only
      rw [addReqLoop_tree_false path vers rs _, updateLine_eq, mapLinesT_comp]
      apply mapLinesT_congr
      intro inB l
      by_cases h1 : r0.syn = some l.id <;>
        by_cases h2 : (rs.filter (fun r => r.mod.path = path)).any
          (fun r => r.syn = some l.id) = true <;>
        simp [removeEffect, addReqEffect, List.filter_cons, hr, h1, h2]
    · have h' : rs.find? (fun r => r.mod.path = path) = some r0 := by
        rwa [List.find?_cons_of_neg _ (by simpa using hr)] at h
      have hfil : ((r :: rs).filter (fun r => r.mod.path = path))
          = rs.filter (fun r => r.mod.path = path) := by
        simp [List.filter_cons, hr]
      rw [addReqLoop, if_neg hr]
      dsimp only
      rw [hfil]
      exact ih t r0 h'



theorem addReqLoop_need_flag (path vers : String) (rs : List ReqRec) :
    ∀ need t, (addReqLoop path vers need rs t).2.2
      = (need && !rs.any (fun r => r.mod.path = path)) := by
  induction rs with
  | nil => intro need t; cases need <;> simp [addReqLoop]
  | cons r rs ih =>
    intro need t
    by_cases hr : r.mod.path = path
    · cases need <;> simp [addReqLoop, hr, ih]
    · simp [addReqLoop, hr, ih]

theorem addReqLoop_length (path vers : String) (rs : List ReqRec) :
    ∀ need t, (addReqLoop path vers need rs t).1.length = rs.length := by
  induction rs with
  | nil => intro need t; simp [addReqLoop]
  | cons r rs ih =>
    intro need t
    by_cases hr : r.mod.path = path
    · cases need <;> simp [addReqLoop, hr, ih]
    · simp [addReqLoop, hr, ih]

theorem addReqLoop_countP (path vers : String) (hpath : path ≠ "") (rs : List ReqRec) :
    ∀ need t, (addReqLoop path vers need rs t).1.countP (fun r => r.mod.path = path)
      = if (need && rs.any (fun r => r.mod.path = path)) = true then 1 else 0 := by
  have hne : ¬ ("" : String) = path := fun h => hpath h.symm
  induction rs with
  | nil => intro need t; cases need <;> simp [addReqLoop]
  | cons r rs ih =>
    intro need t
    by_cases hr : r.mod.path = path
    · cases need <;> simp [addReqLoop, hr, ih, List.countP_cons, hne]
    · simp [addReqLoop, hr, ih, List.countP_cons]

theorem addReqLoop_vers (path vers : String) (hpath : path ≠ "") (rs : List ReqRec) :
    ∀ need t r', r' ∈ (addReqLoop path vers need rs t).1 → r'.mod.path = path →
      r'.mod.version = vers := by
  induction rs with
  | nil => intro need t r' hmem hp; simp [addReqLoop] at hmem
  | cons r rs ih =>
    intro need t r' hmem hp
    by_cases hr : r.mod.path = path
    · cases need
      · rw [addReqLoop, if_pos hr, if_neg (by decide : ¬ ((false : Bool) = true))] at hmem
        dsimp only at hmem
        rcases List.mem_cons.mp hmem with rfl | hmem
        · exact absurd hp.symm hpath
        · exact ih false _ r' hmem hp
      · rw [addReqLoop, if_pos hr, if_pos (rfl : (true : Bool) = true)] at hmem
        dsimp only at hmem
        rcases List.mem_cons.mp hmem with rfl | hmem
        · rfl
        · exact ih false _ r' hmem hp
    · rw [addReqLoop, if_neg hr] at hmem
      dsimp only at hmem
      rcases List.mem_cons.mp hmem with rfl | hmem
      · exact absurd hp hr
      · exact ih need t r' hmem hp

theorem addReqLoop_mem_tri (path vers : String) (rs : List ReqRec) :
    ∀ need t r', r' ∈ (addReqLoop path vers need rs t).1 →
      (r' ∈ rs ∧ r'.mod.path ≠ path) ∨ (r'.mod.path = path ∧ r'.mod.version = vers) ∨
        r' = ⟨⟨"", ""⟩, none⟩ := by
  induction rs with
  | nil => intro need t r' hmem; simp [addReqLoop] at hmem
  | cons r rs ih =>
    intro need t r' hmem
    by_cases hr : r.mod.path = path
    · cases need
      · rw [addReqLoop, if_pos hr, if_neg (by decide : ¬ ((false : Bool) = true))] at hmem
        dsimp only at hmem
        rcases List.mem_cons.mp hmem with rfl | hmem
        · exact Or.inr (Or.inr rfl)
        · rcases ih false _ r' hmem with ⟨hm, hnp⟩ | h | h
          · exact Or.inl ⟨List.mem_cons_of_mem _ hm, hnp⟩
          · exact Or.inr (Or.inl h)
          · exact Or.inr (Or.inr h)
      · rw [addReqLoop, if_pos hr, if_pos (rfl : (true : Bool) = true)] at hmem
        dsimp only at hmem
        rcases List.mem_cons.mp hmem with rfl | hmem
        · exact Or.inr (Or.inl ⟨hr, rfl⟩)
        · rcases ih false _ r' hmem with ⟨hm, hnp⟩ | h | h
          · exact Or.inl ⟨List.mem_cons_of_mem _ hm, hnp⟩
          · exact Or.inr (Or.inl h)
          · exact Or.inr (Or.inr h)
    · rw [addReqLoop, if_neg hr] at hmem
      dsimp only at hmem
      rcases List.mem_cons.mp hmem with rfl | hmem
      · exact Or.inl ⟨List.mem_cons_self _ _, hr⟩
      · rcases ih need t r' hmem with ⟨hm, hnp⟩ | h | h
        · exact Or.inl ⟨List.mem_cons_of_mem _ hm, hnp⟩
        · exact Or.inr (Or.inl h)
        · exact Or.inr (Or.inr h)

theorem addReqLoop_find (path vers : String) (rs : List ReqRec) :
    ∀ t r0, rs.find? (fun r => r.mod.path = path) = some r0 →
      (addReqLoop path vers true rs t).1.find? (fun r => r.mod.path = path)
        = some ⟨⟨r0.mod.path, vers⟩, r0.syn⟩ := by
  induction rs with
  | nil => intro t r0 h; simp [List.find?] at h
  | cons r rs ih =>
    intro t r0 h
    by_cases hr : r.mod.path = path
    · have hr0 : r0 = r := by
        rw [List.find?_cons_of_pos _ (by simpa using hr)] at h
        exact (Option.some.inj h).symm
      subst hr0
      rw [addReqLoop, if_pos hr, if_pos (rfl : (true : Bool) = true)]
      dsimp only
      rw [List.find?_cons_of_pos _ (by simpa using hr)]
    · have h' : rs.find? (fun r => r.mod.path = path) = some r0 := by
        rwa [List.find?_cons_of_neg _ (by simpa using hr)] at h
      rw [addReqLoop, if_neg hr]
      dsimp only
      rw [List.find?_cons_of_neg _ (by simpa using hr)]
      exact ih t r0 h'

theorem addReqLoop_nomatch (path vers : String) (rs : List ReqRec)
    (hnone : ∀ r ∈ rs, ¬ r.mod.path = path) :
    ∀ need t, addReqLoop path vers need rs t = (rs, t, need) := by
  induction rs with
  | nil => intro need t; rfl
  | cons r rs ih =>
    intro need t
    have hr : ¬ r.mod.path = path := hnone r (List.mem_cons_self _ _)
    rw [addReqLoop, if_neg hr]
    dsimp only
    rw [ih (fun r hm => hnone r (List.mem_cons_of_mem _ hm)) need t]



theorem c3_addRequire (f : GoFile) (path vers : String) (hpath : path ≠ "") :
    ((addRequire f path vers).require.countP (fun r => r.mod.path = path) = 1) ∧
    (∀ r ∈ (addRequire f path vers).require, r.mod.path = path → r.mod.version = vers) ∧
    ((addRequire f path vers).require.length =
      if f.require.any (fun r => r.mod.path = path) then f.require.length
      else f.require.length + 1) ∧
    (∀ r ∈ (addRequire f path vers).require,
      (r ∈ f.require ∧ r.mod.path ≠ path) ∨ (r.mod.path = path ∧ r.mod.version = vers) ∨
        r = ⟨⟨"", ""⟩, none⟩) ∧
    (∀ r0, f.require.find? (fun r => r.mod.path = path) = some r0 →
      (addRequire f path vers).require.find? (fun r => r.mod.path = path)
        = some ⟨⟨r0.mod.path, vers⟩, r0.syn⟩) ∧
    (∀ r0, f.require.find? (fun r => r.mod.path = path) = some r0 →
      (addRequire f path vers).tree = mapLinesT
        (addReqEffect path vers r0 ((f.require.filter (fun r => r.mod.path = path)).drop 1))
        f.tree) ∧
    ((∀ r ∈ f.require, ¬ r.mod.path = path) →
      (addRequire f path vers).require = f.require ++ [⟨⟨path, vers⟩, some f.nextId⟩] ∧
      (addRequire f path vers).tree.stmts
        = f.tree.stmts ++ [.line ⟨f.nextId, ["require", AutoQuote path, vers]⟩]) := by
  by_cases hany : f.require.any (fun r => r.mod.path = path) = true
  · have hflag : (addReqLoop path vers true f.require f.tree).2.2 = false := by
      rw [addReqLoop_need_flag, hany]
      rfl
    have haddr : addRequire f path vers =
        { f with require := (addReqLoop path vers true f.require f.tree).1,
                 tree := (addReqLoop path vers true f.require f.tree).2.1 } := by
      unfold addRequire
      simp only [hflag]
      rfl
    refine ⟨?_, ?_, ?_, ?_, ?_, ?_, ?_⟩
    · rw [haddr]
      show (addReqLoop path vers true f.require f.tree).1.countP
        (fun r => r.mod.path = path) = 1
      rw [addReqLoop_countP path vers hpath]
      simp [hany]
    · rw [haddr]
      intro r hm hp
      exact addReqLoop_vers path vers hpath f.require true f.tree r hm hp
    · rw [haddr]
      show (addReqLoop path vers true f.require f.tree).1.length = _
      rw [addReqLoop_length]
      simp [hany]
    · rw [haddr]
      intro r hm
      exact addReqLoop_mem_tri path vers f.require true f.tree r hm
    · intro r0 h0
      rw [haddr]
      exact addReqLoop_find path vers f.require f.tree r0 h0
    · intro r0 h0
      rw [haddr]
      exact addReqLoop_tree_true path vers f.require f.tree r0 h0
    · intro hnone
      exfalso
      obtain ⟨r, hm, hp⟩ := List.any_eq_true.mp hany
      exact hnone r hm (by simpa using hp)
  · have hnone : ∀ r ∈ f.require, ¬ r.mod.path = path := by
      intro r hm hp
      exact hany (List.any_eq_true.mpr ⟨r, hm, by simpa using hp⟩)
    have hres : addReqLoop path vers true f.require f.tree = (f.require, f.tree, true) :=
      addReqLoop_nomatch path vers f.require hnone true f.tree
    have haddr : addRequire f path vers = addNewRequire f path vers := by
      unfold addRequire
      simp only [hres]
      rw [if_pos trivial]
    have hz : f.require.countP (fun r => r.mod.path = path) = 0 :=
      List.countP_eq_zero.mpr (fun r hm => by simpa using hnone r hm)
    refine ⟨?_, ?_, ?_, ?_, ?_, ?_, ?_⟩
    · rw [haddr]
      simp [addNewRequire, List.countP_append, hz, List.countP_cons]
    · rw [haddr]
      intro r hm hp
      rcases List.mem_append.mp hm with hm | hm
      · exact absurd hp (hnone r hm)
      · rcases List.mem_singleton.mp hm with rfl
        rfl
    · rw [haddr]
      simp only [hany, if_false]
      simp [addNewRequire]
    · rw [haddr]
      intro r hm
      rcases List.mem_append.mp hm with hm | hm
      · exact Or.inl ⟨hm, hnone r hm⟩
      · rcases List.mem_singleton.mp hm with rfl
        exact Or.inr (Or.inl ⟨rfl, rfl⟩)
    · intro r0 h0
      exact absurd (by simpa using List.find?_some h0)
        (hnone r0 (List.mem_of_find?_eq_some h0))
    · intro r0 h0
      exact absurd (by simpa using List.find?_some h0)
        (hnone r0 (List.mem_of_find?_eq_some h0))
    · intro _
      rw [haddr]
      exact ⟨rfl, rfl⟩

/-- The starting state of the C3 witness: two require records for the
same path. -/
def c3F : GoFile :=
  { module := none,
    require := [⟨⟨"example.com/a", "v1.0.0"⟩, some 1⟩, ⟨⟨"example.com/a", "v1.1.0"⟩, some 2⟩],
    exclude := [], replace := [],
    tree := ⟨"go.mod", [.line ⟨1, ["require", "example.com/a", "v1.0.0"]⟩,
      .line ⟨2, ["require", "example.com/a", "v1.1.0"]⟩]⟩,
    nextId := 3 }

/-- C3 witness: starting from two records for example.com/a, after
addRequire exactly one record for the path survives, the first one,
updated in place to the new version. -/
theorem c3_witness :
    (addRequire c3F "example.com/a" "v1.2.0").require.countP
        (fun r => r.mod.path = "example.com/a") = 1 ∧
    (addRequire c3F "example.com/a" "v1.2.0").require.find?
        (fun r => r.mod.path = "example.com/a")
      = some ⟨⟨"example.com/a", "v1.2.0"⟩, some 1⟩ :=
  ⟨(c3_addRequire c3F "example.com/a" "v1.2.0" (by decide)).1,
    by
      have h := (c3_addRequire c3F "example.com/a" "v1.2.0" (by decide)).2.2.2.2.1
        ⟨⟨"example.com/a", "v1.0.0"⟩, some 1⟩ (by decide)
      simpa using h⟩

/-- Modelled (Go string comparison): byte-lexicographic order; UTF-8
byte order agrees with code-point order, so it is modelled on the
character sequences. -/
def charsLt : List Char → List Char → Bool
  | _, [] => false
  | [], _ :: _ => true
  | a :: as, b :: bs => if a ≠ b then decide (a < b) else charsLt as bs

/-- Modelled (Go string comparison) on strings. -/
def strLt (a b : String) : Bool := charsLt a.data b.data

theorem charsLt_trans : ∀ a b c : List Char, charsLt a b = true → charsLt b c = true →
    charsLt a c = true
  | _, [], _, h1, _ => by simp [charsLt] at h1
  | _, _ :: _, [], _, h2 => by simp [charsLt] at h2
  | [], b0 :: bs, c0 :: cs, h1, h2 => rfl
  | a0 :: as, b0 :: bs, c0 :: cs, h1, h2 => by
    rw [charsLt] at h1 h2 ⊢
    by_cases hab : a0 = b0
    · subst hab
      rw [if_neg (by simp)] at h1
      by_cases hbc : a0 = c0
      · subst hbc
        rw [if_neg (by simp)] at h2 ⊢
        exact charsLt_trans as bs cs h1 h2
      · rw [if_pos hbc] at h2 ⊢
        exact h2
    · rw [if_pos hab] at h1
      by_cases hbc : b0 = c0
      · subst hbc
        rw [if_pos hab]
        exact h1
      · rw [if_pos hbc] at h2
        have hac : a0 < c0 := lt_trans (of_decide_eq_true h1) (of_decide_eq_true h2)
        rw [if_pos (ne_of_lt hac), decide_eq_true_eq]
        exact hac

theorem charsLt_asymm : ∀ a b : List Char, charsLt a b = true → charsLt b a = false
  | _, [], h => by simp [charsLt] at h
  | [], _ :: _, _ => rfl
  | a0 :: as, b0 :: bs, h => by
    rw [charsLt] at h ⊢
    by_cases hab : a0 = b0
    · subst hab
      rw [if_neg (by simp)] at h ⊢
      exact charsLt_asymm as bs h
    · rw [if_pos hab] at h
      rw [if_pos (Ne.symm hab)]
      simpa using lt_asymm (of_decide_eq_true h)

theorem charsLt_connex : ∀ a b : List Char, a ≠ b →
    charsLt a b = true ∨ charsLt b a = true
  | [], [], h => absurd rfl h
  | [], _ :: _, _ => Or.inl rfl
  | _ :: _, [], _ => Or.inr rfl
  | a0 :: as, b0 :: bs, h => by
    by_cases hab : a0 = b0
    · subst hab
      have hne : as ≠ bs := fun hc => h (by rw [hc])
      rcases charsLt_connex as bs hne with h1 | h1
      · exact Or.inl (by rw [charsLt, if_neg (by simp)]; exact h1)
      · exact Or.inr (by rw [charsLt, if_neg (by simp)]; exact h1)
    · rcases Ne.lt_or_lt hab with hl | hl
      · exact Or.inl (by rw [charsLt, if_pos hab, decide_eq_true_eq]; exact hl)
      · exact Or.inr (by rw [charsLt, if_pos (Ne.symm hab), decide_eq_true_eq]; exact hl)

theorem strData_inj {a b : String} (h : a.data = b.data) : a = b := by
  cases a
  cases b
  exact congrArg String.mk h

theorem strLt_trans (a b c : String) (h1 : strLt a b = true) (h2 : strLt b c = true) :
    strLt a c = true :=
  charsLt_trans _ _ _ h1 h2

theorem strLt_asymm (a b : String) (h : strLt a b = true) : strLt b a = false :=
  charsLt_asymm _ _ h

theorem strLt_connex (a b : String) (h : a ≠ b) : strLt a b = true ∨ strLt b a = true :=
  charsLt_connex _ _ (fun hc => h (strData_inj hc))

/-- The line comparator of SortBlocks (rule.go): tokens compared
pairwise up to the shorter sequence, shorter-first on a full tie of the
common prefix. -/
def tokensLt : List String → List String → Bool
  | _, [] => false
  | [], _ :: _ => true
  | a :: as, b :: bs => if a ≠ b then strLt a b else tokensLt as bs

theorem tokensLt_trans : ∀ a b c : List String, tokensLt a b = true → tokensLt b c = true →
    tokensLt a c = true
  | _, [], _, h1, _ => by simp [tokensLt] at h1
  | _, _ :: _, [], _, h2 => by simp [tokensLt] at h2
  | [], b0 :: bs, c0 :: cs, h1, h2 => rfl
  | a0 :: as, b0 :: bs, c0 :: cs, h1, h2 => by
    rw [tokensLt] at h1 h2 ⊢
    by_cases hab : a0 = b0
    · subst hab
      rw [if_neg (by simp)] at h1
      by_cases hbc : a0 = c0
      · subst hbc
        rw [if_neg (by simp)] at h2 ⊢
        exact tokensLt_trans as bs cs h1 h2
      · rw [if_pos hbc] at h2 ⊢
        exact h2
    · rw [if_pos hab] at h1
      by_cases hbc : b0 = c0
      · subst hbc
        rw [if_pos hab]
        exact h1
      · rw [if_pos hbc] at h2
        have hac : strLt a0 c0 = true := strLt_trans _ _ _ h1 h2
        have hnac : a0 ≠ c0 := by
          intro hc
          subst hc
          have hf := strLt_asymm _ _ h1
          simp [hf] at h2
        rw [if_pos hnac]
        exact hac

theorem tokensLt_asymm : ∀ a b : List String, tokensLt a b = true → tokensLt b a = false
  | _, [], h => by simp [tokensLt] at h
  | [], _ :: _, _ => rfl
  | a0 :: as, b0 :: bs, h => by
    rw [tokensLt] at h ⊢
    by_cases hab : a0 = b0
    · subst hab
      rw [if_neg (by simp)] at h ⊢
      exact tokensLt_asymm as bs h
    · rw [if_pos hab] at h
      rw [if_pos (Ne.symm hab)]
      exact strLt_asymm _ _ h

theorem tokensLt_connex : ∀ a b : List String, a ≠ b →
    tokensLt a b = true ∨ tokensLt b a = true
  | [], [], h => absurd rfl h
  | [], _ :: _, _ => Or.inl rfl
  | _ :: _, [], _ => Or.inr rfl
  | a0 :: as, b0 :: bs, h => by
    by_cases hab : a0 = b0
    · subst hab
      have hne : as ≠ bs := fun hc => h (by rw [hc])
      rcases tokensLt_connex as bs hne with h1 | h1
      · exact Or.inl (by rw [tokensLt, if_neg (by simp)]; exact h1)
      · exact Or.inr (by rw [tokensLt, if_neg (by simp)]; exact h1)
    · rcases strLt_connex a0 b0 hab with hl | hl
      · exact Or.inl (by rw [tokensLt, if_pos hab]; exact hl)
      · exact Or.inr (by rw [tokensLt, if_pos (Ne.symm hab)]; exact hl)

theorem tokensLt_irrefl : ∀ a : List String, tokensLt a a = false
  | [] => rfl
  | a0 :: as => by
    rw [tokensLt, if_neg (by simp)]
    exact tokensLt_irrefl as

theorem tokensLt_le_trans (a b c : List String) (h1 : tokensLt b a = false)
    (h2 : tokensLt c b = false) : tokensLt c a = false := by
  by_contra hcon
  have hca : tokensLt c a = true := by simpa using hcon
  by_cases hcb : c = b
  · subst hcb
    simp [hca] at h1
  · rcases tokensLt_connex c b hcb with hx | hx
    · simp [hx] at h2
    · have := tokensLt_trans b c a hx hca
      simp [this] at h1



/-- Modelled from the spec: the source sorts each block's lines with the
external Go library sort (sort.Slice) over the tokensLt comparator; the
spec specifies the sort as stable, and the stable sort over a strict
weak order is unique, so it is modelled as insertion sort: each line is
inserted before the first later line that does not strictly precede
it. -/
def insertLine (x : Line) : List Line → List Line
  | [] => [x]
  | y :: ys =>
    if tokensLt y.tokens x.tokens = false then x :: y :: ys
    else y :: insertLine x ys

/-- Modelled from the spec: the stable sort of a block's lines. -/
def sortLines : List Line → List Line
  | [] => []
  | x :: xs => insertLine x (sortLines xs)

theorem insertLine_perm (x : Line) : ∀ l : List Line, (insertLine x l).Perm (x :: l)
  | [] => List.Perm.refl _
  | y :: ys => by
    rw [insertLine]
    by_cases hc : tokensLt y.tokens x.tokens = false
    · rw [if_pos hc]
    · rw [if_neg hc]
      exact ((insertLine_perm x ys).cons y).trans (List.Perm.swap x y ys)

theorem sortLines_perm : ∀ l : List Line, (sortLines l).Perm l
  | [] => List.Perm.refl _
  | x :: xs => (insertLine_perm x (sortLines xs)).trans ((sortLines_perm xs).cons x)

theorem insertLine_pairwise (x : Line) :
    ∀ l : List Line, l.Pairwise (fun a b => tokensLt b.tokens a.tokens = false) →
      (insertLine x l).Pairwise (fun a b => tokensLt b.tokens a.tokens = false)
  | [], _ => List.pairwise_singleton _ _
  | y :: ys, h => by
    obtain ⟨hy, hys⟩ := List.pairwise_cons.mp h
    rw [insertLine]
    by_cases hc : tokensLt y.tokens x.tokens = false
    · rw [if_pos hc]
      refine List.pairwise_cons.mpr ⟨?_, h⟩
      intro z hz
      rcases List.mem_cons.mp hz with rfl | hz
      · exact hc
      · exact tokensLt_le_trans x.tokens y.tokens z.tokens hc (hy z hz)
    · rw [if_neg hc]
      have hlt : tokensLt y.tokens x.tokens = true := by simpa using hc
      refine List.pairwise_cons.mpr ⟨?_, insertLine_pairwise x ys hys⟩
      intro z hz
      have hz2 : z ∈ x :: ys := (insertLine_perm x ys).mem_iff.mp hz
      rcases List.mem_cons.mp hz2 with rfl | hz2
      · exact tokensLt_asymm _ _ hlt
      · exact hy z hz2

theorem sortLines_pairwise :
    ∀ l : List Line, (sortLines l).Pairwise (fun a b => tokensLt b.tokens a.tokens = false)
  | [] => List.Pairwise.nil
  | x :: xs => insertLine_pairwise x (sortLines xs) (sortLines_pairwise xs)

theorem insertLine_filter (x : Line) (ts : List String) :
    ∀ l : List Line,
      (insertLine x l).filter (fun l' => l'.tokens = ts)
        = if x.tokens = ts then x :: l.filter (fun l' => l'.tokens = ts)
          else l.filter (fun l' => l'.tokens = ts)
  | [] => by
    by_cases hx : x.tokens = ts <;> simp [insertLine, List.filter, hx]
  | y :: ys => by
    rw [insertLine]
    by_cases hc : tokensLt y.tokens x.tokens = false
    · rw [if_pos hc]
      by_cases hx : x.tokens = ts <;> simp [List.filter_cons, hx]
    · rw [if_neg hc]
      have hlt : tokensLt y.tokens x.tokens = true := by simpa using hc
      by_cases hy : y.tokens = ts
      · have hx : ¬ x.tokens = ts := by
          intro hxts
          rw [hy, hxts, tokensLt_irrefl] at hlt
          exact Bool.false_ne_true hlt
        simp [List.filter_cons, hy, hx, insertLine_filter x ts ys]
      · simp [List.filter_cons, hy, insertLine_filter x ts ys]

theorem sortLines_filter (ts : List String) :
    ∀ l : List Line,
      (sortLines l).filter (fun l' => l'.tokens = ts)
        = l.filter (fun l' => l'.tokens = ts)
  | [] => rfl
  | x :: xs => by
    rw [sortLines, insertLine_filter x ts (sortLines xs), sortLines_filter ts xs]
    by_cases hx : x.tokens = ts <;> simp [List.filter_cons, hx]



/-- removeDups (rule.go), duplicate-marking loop: scanning the records,
when a record's key was already seen its line handle joins the kill set,
otherwise the key is recorded as seen. -/
def dupScan {α : Type} (key : α → ModVersion) (syn : α → Option Nat) :
    List α → List ModVersion → List (Option Nat) → List ModVersion × List (Option Nat)
  | [], seen, kill => (seen, kill)
  | x :: xs, seen, kill =>
    if key x ∈ seen then dupScan key syn xs seen (syn x :: kill)
    else dupScan key syn xs (key x :: seen) kill

/-- removeDups (rule.go), filter pass: drop killed lines from the
top-level statements and from inside blocks; drop blocks left without
lines; keep everything else (comment blocks in particular). -/
def filterKilled (kill : List (Option Nat)) : List Expr → List Expr
  | [] => []
  | .line l :: rest =>
    if (some l.id) ∈ kill then filterKilled kill rest
    else .line l :: filterKilled kill rest
  | .block pos btoks lines :: rest =>
    let lines' := lines.filter (fun l => ¬ (some l.id) ∈ kill)
    if lines' = [] then filterKilled kill rest
    else .block pos btoks lines' :: filterKilled kill rest
  | .comment :: rest => .comment :: filterKilled kill rest

/-- removeDups (rule.go): mark duplicate Exclude records in scan order
and duplicate Replace records scanning from the end (later replacements
take priority over earlier ones), filter the record slices, then filter
the killed lines out of the tree. -/
def removeDups (f : GoFile) : GoFile :=
  let kill1 := (dupScan (fun x : ExclRec => x.mod) (fun x => x.syn) f.exclude [] []).2
  let excl := f.exclude.filter (fun x => ¬ x.syn ∈ kill1)
  let kill2 := (dupScan (fun x : ReplRec => x.old) (fun x => x.syn) f.replace.reverse [] kill1).2
  let repl := f.replace.filter (fun x => ¬ x.syn ∈ kill2)
  { f with exclude := excl, replace := repl,
           tree := { f.tree with stmts := filterKilled kill2 f.tree.stmts } }

/-- SortBlocks (rule.go): removeDups first (otherwise sorting is
unsafe), then sort every block's nested lines. -/
def sortBlocks (f : GoFile) : GoFile :=
  let f := removeDups f
  { f with tree := { f.tree with stmts := f.tree.stmts.map (fun e =>
      match e with
      | .block pos btoks lines => .block pos btoks (sortLines lines)
      | e => e) } }

/-- C7: sortBlocks first runs removeDups and then stably sorts the
nested lines of every block by the lexicographic token comparator
(pairwise up to the shorter sequence, shorter sequence first on a full
tie): the sorted lines are a permutation of the block's lines, no line
strictly precedes an earlier one, and lines with equal token sequences
keep their relative order. -/
theorem c7_sortBlocks (f : GoFile) (lines : List Line) (ts : List String) :
    sortBlocks f = { removeDups f with tree := { (removeDups f).tree with
        stmts := (removeDups f).tree.stmts.map (fun e =>
          match e with
          | .block pos btoks ls => .block pos btoks (sortLines ls)
          | e => e) } } ∧
    (sortLines lines).Perm lines ∧
    (sortLines lines).Pairwise (fun a b => tokensLt b.tokens a.tokens = false) ∧
    (sortLines lines).filter (fun l => l.tokens = ts)
      = lines.filter (fun l => l.tokens = ts) :=
  ⟨rfl, sortLines_perm lines, sortLines_pairwise lines, sortLines_filter ts lines⟩

-- behavioral checks of the embedding on concrete data
example : sortLines [⟨1, ["b", "v1"]⟩, ⟨2, ["a", "v2"]⟩, ⟨3, ["a", "v1"]⟩]
    = [⟨3, ["a", "v1"]⟩, ⟨2, ["a", "v2"]⟩, ⟨1, ["b", "v1"]⟩] := by decide
example : sortLines [⟨1, ["a", "v1"]⟩, ⟨2, ["a"]⟩] = [⟨2, ["a"]⟩, ⟨1, ["a", "v1"]⟩] := by decide
example : sortLines [⟨1, ["a", "v1"]⟩, ⟨2, ["a", "v1"]⟩]
    = [⟨1, ["a", "v1"]⟩, ⟨2, ["a", "v1"]⟩] := by decide



/-- The deduplication policy as the spec words it (refinement
reference): scanning in order, keep the first occurrence per key. -/
def keepFirstBy {α : Type} (key : α → ModVersion) (seen : List ModVersion) :
    List α → List α
  | [] => []
  | x :: xs =>
    if key x ∈ seen then keepFirstBy key seen xs
    else x :: keepFirstBy key (key x :: seen) xs

/-- The line handles of the records the first-occurrence policy drops
(refinement reference). -/
def killedBy {α : Type} (key : α → ModVersion) (syn : α → Option Nat)
    (seen : List ModVersion) : List α → List (Option Nat)
  | [] => []
  | x :: xs =>
    if key x ∈ seen then syn x :: killedBy key syn seen xs
    else killedBy key syn (key x :: seen) xs

theorem dupScan_mem {α : Type} (key : α → ModVersion) (syn : α → Option Nat) :
    ∀ (xs : List α) (seen : List ModVersion) (kill : List (Option Nat)) (oid : Option Nat),
      oid ∈ (dupScan key syn xs seen kill).2
        ↔ (oid ∈ killedBy key syn seen xs ∨ oid ∈ kill) := by
  intro xs
  induction xs with
  | nil => intro seen kill oid; simp [dupScan, killedBy]
  | cons x xs ih =>
    intro seen kill oid
    by_cases h : key x ∈ seen
    · rw [dupScan, if_pos h, killedBy, if_pos h]
      rw [ih]
      simp [List.mem_cons]
      tauto
    · rw [dupScan, if_neg h, killedBy, if_neg h]
      exact ih _ _ _

theorem killedBy_subset {α : Type} (key : α → ModVersion) (syn : α → Option Nat) :
    ∀ (xs : List α) (seen : List ModVersion) (oid : Option Nat),
      oid ∈ killedBy key syn seen xs → oid ∈ xs.map syn := by
  intro xs
  induction xs with
  | nil => intro seen oid h; simp [killedBy] at h
  | cons x xs ih =>
    intro seen oid h
    by_cases hx : key x ∈ seen
    · rw [killedBy, if_pos hx] at h
      rcases List.mem_cons.mp h with rfl | h
      · simp
      · exact List.mem_cons_of_mem _ (ih _ _ h)
    · rw [killedBy, if_neg hx] at h
      exact List.mem_cons_of_mem _ (ih _ _ h)



theorem dupScan_filter {α : Type} [DecidableEq α] (key : α → ModVersion)
    (syn : α → Option Nat) :
    ∀ (xs : List α) (seen : List ModVersion) (kill : List (Option Nat)),
      (xs.map syn).Nodup → (∀ x ∈ xs, ¬ syn x ∈ kill) →
      xs.filter (fun x => ¬ syn x ∈ (dupScan key syn xs seen kill).2)
        = keepFirstBy key seen xs := by
  intro xs
  induction xs with
  | nil => intro seen kill _ _; rfl
  | cons x xs ih =>
    intro seen kill hnd hdisj
    have hndx : ¬ syn x ∈ xs.map syn := (List.nodup_cons.mp (by simpa using hnd)).1
    have hndxs : (xs.map syn).Nodup := (List.nodup_cons.mp (by simpa using hnd)).2
    by_cases h : key x ∈ seen
    · rw [dupScan, if_pos h, keepFirstBy, if_pos h]
      have hx : syn x ∈ (dupScan key syn xs seen (syn x :: kill)).2 :=
        (dupScan_mem key syn xs seen _ (syn x)).mpr (Or.inr (List.mem_cons_self _ _))
      rw [List.filter_cons_of_neg (by simpa using hx)]
      exact ih seen (syn x :: kill) hndxs
        (fun y hy => by
          intro hmem
          rcases List.mem_cons.mp hmem with he | hmem
          · exact hndx (he ▸ List.mem_map_of_mem syn hy)
          · exact hdisj y (List.mem_cons_of_mem _ hy) hmem)
    · rw [dupScan, if_neg h, keepFirstBy, if_neg h]
      have hx : ¬ syn x ∈ (dupScan key syn xs (key x :: seen) kill).2 := by
        rw [dupScan_mem]
        rintro (hk | hk)
        · exact hndx (killedBy_subset key syn xs _ _ hk)
        · exact hdisj x (List.mem_cons_self _ _) hk
      rw [List.filter_cons_of_pos (by simpa using hx)]
      rw [ih (key x :: seen) kill hndxs
        (fun y hy => hdisj y (List.mem_cons_of_mem _ hy))]

theorem filterKilled_congr (k k' : List (Option Nat))
    (h : ∀ oid, oid ∈ k ↔ oid ∈ k') :
    ∀ stmts : List Expr, filterKilled k stmts = filterKilled k' stmts := by
  intro stmts
  induction stmts with
  | nil => rfl
  | cons e rest ih =>
    cases e with
    | line l =>
      by_cases hm : (some l.id) ∈ k
      · rw [filterKilled, if_pos hm, filterKilled, if_pos ((h _).mp hm), ih]
      · rw [filterKilled, if_neg hm, filterKilled, if_neg (fun hc => hm ((h _).mpr hc)), ih]
    | block pos btoks lines =>
      have hfil : lines.filter (fun l => ¬ (some l.id) ∈ k)
          = lines.filter (fun l => ¬ (some l.id) ∈ k') := by
        apply List.filter_congr
        intro l _
        by_cases hm : (some l.id) ∈ k
        · simp [hm, (h _).mp hm]
        · have hm2 : ¬ (some l.id) ∈ k' := fun hc => hm ((h _).mpr hc)
          simp [hm, hm2]
      rw [filterKilled, filterKilled]
      simp only [hfil, ih]
    | comment => rw [filterKilled, filterKilled, ih]



/-- C4: removeDups keeps, per (path, version) key, the first Exclude
record in scan order and the declaration-order-last Replace record per
(oldPath, oldVersion) key (first encountered scanning from the end),
and the filter pass removes exactly the killed lines from the top-level
statements and from inside blocks, dropping blocks left with no lines;
Module and Require records are untouched.  Stated for records whose line
handles are distinct (as decode produces them). -/
theorem c4_removeDups (f : GoFile)
    (hnd : ((f.exclude.map (fun x => x.syn)) ++ (f.replace.map (fun x => x.syn))).Nodup) :
    (removeDups f).exclude = keepFirstBy (fun x : ExclRec => x.mod) [] f.exclude ∧
    (removeDups f).replace
      = (keepFirstBy (fun x : ReplRec => x.old) [] f.replace.reverse).reverse ∧
    (removeDups f).tree.stmts
      = filterKilled
          (killedBy (fun x : ExclRec => x.mod) (fun x => x.syn) [] f.exclude ++
           killedBy (fun x : ReplRec => x.old) (fun x => x.syn) [] f.replace.reverse)
          f.tree.stmts ∧
    (removeDups f).module = f.module ∧
    (removeDups f).require = f.require := by
  obtain ⟨hndE, hndR, hdisj⟩ := List.nodup_append.mp hnd
  have hkill1 : ∀ oid, oid ∈ (dupScan (fun x : ExclRec => x.mod) (fun x => x.syn)
      f.exclude [] []).2
      ↔ oid ∈ killedBy (fun x : ExclRec => x.mod) (fun x => x.syn) [] f.exclude := by
    intro oid
    rw [dupScan_mem]
    simp
  have hdisjR : ∀ x ∈ f.replace.reverse,
      ¬ (fun x : ReplRec => x.syn) x ∈ (dupScan (fun x : ExclRec => x.mod)
        (fun x => x.syn) f.exclude [] []).2 := by
    intro x hx hmem
    have h1 := (hkill1 _).mp hmem
    have h2 := killedBy_subset _ _ _ _ _ h1
    exact hdisj h2 (List.mem_map_of_mem _ (List.mem_reverse.mp hx))
  have hndRrev : (f.replace.reverse.map (fun x => x.syn)).Nodup := by
    rw [List.map_reverse]
    exact List.nodup_reverse.mpr hndR
  refine ⟨?_, ?_, ?_, rfl, rfl⟩
  · exact dupScan_filter (fun x : ExclRec => x.mod) (fun x => x.syn) f.exclude [] []
      hndE (by simp)
  · show f.replace.filter (fun x => ¬ x.syn ∈ (dupScan (fun x : ReplRec => x.old)
        (fun x => x.syn) f.replace.reverse []
        (dupScan (fun x : ExclRec => x.mod) (fun x => x.syn) f.exclude [] []).2).2) = _
    rw [← List.reverse_reverse (f.replace.filter _), ← List.filter_reverse]
    rw [dupScan_filter (fun x : ReplRec => x.old) (fun x => x.syn) f.replace.reverse []
      _ hndRrev hdisjR]
  · apply filterKilled_congr
    intro oid
    rw [dupScan_mem, List.mem_append, hkill1]
    tauto

/-- The starting state of the C4 witness: two replace directives with
the same (oldPath, oldVersion) key. -/
def c4F : GoFile :=
  { module := none, require := [], exclude := [],
    replace := [⟨⟨"old", "v1.0.0"⟩, ⟨"a", ""⟩, some 1⟩,
                ⟨⟨"old", "v1.0.0"⟩, ⟨"b", ""⟩, some 2⟩],
    tree := ⟨"go.mod", [.line ⟨1, ["replace", "old", "v1.0.0", "=>", "a"]⟩,
                        .line ⟨2, ["replace", "old", "v1.0.0", "=>", "b"]⟩]⟩,
    nextId := 3 }

/-- C4 witness: two replace directives with the same key leave only the
last-declared one after removeDups (and after sortBlocks), both in the
records and in the tree. -/
theorem c4_witness :
    (removeDups c4F).replace = [⟨⟨"old", "v1.0.0"⟩, ⟨"b", ""⟩, some 2⟩] ∧
    (sortBlocks c4F).replace = [⟨⟨"old", "v1.0.0"⟩, ⟨"b", ""⟩, some 2⟩] ∧
    (sortBlocks c4F).tree.stmts = [.line ⟨2, ["replace", "old", "v1.0.0", "=>", "b"]⟩] :=
  ⟨((c4_removeDups c4F (by decide)).2.1).trans (by decide), by decide, by decide⟩

end Modfile


namespace Modfile

/-! ## SetRequire

The desired path-to-version mapping is a Go map; it is modelled as an
association list with unique keys.  Go map iteration order is
unspecified; the model iterates leftovers in insertion order (the
properties proved below do not depend on that order). -/

/-- Map lookup. -/
def lookupNeed : List (String × String) → String → Option String
  | [], _ => none
  | (k, v) :: rest, p => if k = p then some v else lookupNeed rest p

/-- need[p] as Go reads it: the empty string when the key is absent. -/
def needGet (need : List (String × String)) (p : String) : String :=
  (lookupNeed need p).getD ""

/-- delete(need, p). -/
def eraseNeed : List (String × String) → String → List (String × String)
  | [], _ => []
  | (k, v) :: rest, p => if k = p then eraseNeed rest p else (k, v) :: eraseNeed rest p

/-- need[path] = version (map write: replace the entry or append). -/
def setNeed : List (String × String) → String → String → List (String × String)
  | [], p, v => [(p, v)]
  | (k, w) :: rest, p, v =>
    if k = p then (k, v) :: rest else (k, w) :: setNeed rest p v

/-- SetRequire (rule.go): the desired map built from the request list;
for duplicate paths the last entry wins. -/
def buildNeed (req : List ModVersion) : List (String × String) :=
  req.foldl (fun acc m => setNeed acc m.path m.version) []

/-- SetRequire (rule.go), require-block line pass: a nested line whose
parsed path is needed with a nonempty version has its path token
normalized and its version token replaced, and consumes the path; every
other line is dropped. -/
def setReqLines (need : List (String × String)) :
    List Line → List Line × List (String × String)
  | [] => ([], need)
  | l :: ls =>
    match parseString (l.tokens.getD 0 "") with
    | .ok (p, tok0) =>
      if needGet need p ≠ "" then
        let rest := setReqLines (eraseNeed need p) ls
        (⟨l.id, (l.tokens.set 0 tok0).set 1 (needGet need p)⟩ :: rest.1, rest.2)
      else setReqLines need ls
    | .error _ => setReqLines need ls

/-- SetRequire (rule.go), statement pass: update-or-drop require
statements (bare lines and require blocks), threading the desired map;
a require block left with no kept lines is dropped; every other
statement passes through unchanged. -/
def setReqStmts (need : List (String × String)) :
    List Expr → List Expr × List (String × String)
  | [] => ([], need)
  | .block pos btoks lines :: rest =>
    if btoks.headD "" = "require" then
      let lr := setReqLines need lines
      let r := setReqStmts lr.2 rest
      if lr.1 = [] then r
      else (.block pos btoks lr.1 :: r.1, r.2)
    else
      let r := setReqStmts need rest
      (.block pos btoks lines :: r.1, r.2)
  | .line l :: rest =>
    if l.tokens.headD "" = "require" then
      match parseString (l.tokens.getD 1 "") with
      | .ok (p, tok1) =>
        if needGet need p ≠ "" then
          let r := setReqStmts (eraseNeed need p) rest
          (.line ⟨l.id, (l.tokens.set 1 tok1).set 2 (needGet need p)⟩ :: r.1, r.2)
        else setReqStmts need rest
      | .error _ => setReqStmts need rest
    else
      let r := setReqStmts need rest
      (.line l :: r.1, r.2)
  | .comment :: rest =>
    let r := setReqStmts need rest
    (.comment :: r.1, r.2)

/-- SetRequire (rule.go): build the desired map (last entry per path
wins), update the require records' versions in place, update-or-drop
the require statements of the tree, append a new require line for every
desired path not consumed, and conclude with the block sort. -/
def setRequire (f : GoFile) (req : List ModVersion) : GoFile :=
  let need0 := buildNeed req
  let reqs := f.require.map (fun r =>
    match lookupNeed need0 r.mod.path with
    | some v => { r with mod := { r.mod with version := v } }
    | none => r)
  let pass := setReqStmts need0 f.tree.stmts
  let f1 := { f with require := reqs, tree := { f.tree with stmts := pass.1 } }
  sortBlocks (pass.2.foldl (fun g pv => addNewRequire g pv.1 pv.2) f1)

-- behavioral checks
def c2F : GoFile :=
  { module := none,
    require := [⟨⟨"example.com/a", "v1.0.0"⟩, some 1⟩, ⟨⟨"example.com/a", "v1.1.0"⟩, some 2⟩],
    exclude := [], replace := [],
    tree := ⟨"go.mod", [.line ⟨1, ["require", "example.com/a", "v1.0.0"]⟩,
                        .line ⟨2, ["require", "example.com/a", "v1.1.0"]⟩]⟩,
    nextId := 3 }

def c10F : GoFile :=
  { module := none,
    require := [⟨⟨"example.com/a", "v1.0.0"⟩, some 1⟩],
    exclude := [], replace := [],
    tree := ⟨"go.mod", [.line ⟨1, ["require", "example.com/a", "v1.0.0"]⟩,
                        .line ⟨2, ["module", "m"]⟩]⟩,
    nextId := 3 }

end Modfile

namespace Modfile

theorem parseString_ok_snd (t a b : String) (h : parseString t = .ok (a, b)) :
    b = AutoQuote a := by
  unfold parseString at h
  by_cases h1 : hasPfx t "\"" = true
  · rw [if_pos h1] at h
    rcases hu : goUnquote t with _ | u
    · rw [hu] at h
      exact Except.noConfusion h
    · rw [hu] at h
      obtain ⟨rfl, rfl⟩ : u = a ∧ AutoQuote u = b := by
        have := Except.ok.inj h
        exact ⟨congrArg Prod.fst this, congrArg Prod.snd this⟩
      rfl
  · rw [if_neg h1] at h
    by_cases h2 : t.data.any (fun c => c.toNat = 34 || c.toNat = 39 || c.toNat = 96) = true
    · rw [if_pos h2] at h
      exact Except.noConfusion h
    · rw [if_neg h2] at h
      have := Except.ok.inj h
      obtain rfl : t = a := congrArg Prod.fst this
      exact (congrArg Prod.snd this).symm

theorem cleanTok_autoQuote (t : String) (h : cleanTok t) : AutoQuote t = t :=
  (parseString_ok_snd t t t h).symm

theorem lookupNeed_erase_self (need : List (String × String)) (p : String) :
    lookupNeed (eraseNeed need p) p = none := by
  induction need with
  | nil => rfl
  | cons kv rest ih =>
    obtain ⟨k, v⟩ := kv
    by_cases hk : k = p
    · rw [eraseNeed, if_pos hk]
      exact ih
    · rw [eraseNeed, if_neg hk, lookupNeed, if_neg hk]
      exact ih

theorem lookupNeed_erase_ne (need : List (String × String)) (p q : String) (h : q ≠ p) :
    lookupNeed (eraseNeed need p) q = lookupNeed need q := by
  induction need with
  | nil => rfl
  | cons kv rest ih =>
    obtain ⟨k, v⟩ := kv
    by_cases hk : k = p
    · rw [eraseNeed, if_pos hk, lookupNeed, if_neg (by rw [hk]; exact fun hc => h hc.symm)]
      exact ih
    · rw [eraseNeed, if_neg hk, lookupNeed, lookupNeed]
      by_cases hq : k = q
      · rw [if_pos hq, if_pos hq]
      · rw [if_neg hq, if_neg hq]
        exact ih

theorem setNeed_lookup_inv : ∀ (acc : List (String × String)) (p v q w : String),
    lookupNeed (setNeed acc p v) q = some w →
    (q = p ∧ w = v) ∨ lookupNeed acc q = some w := by
  intro acc
  induction acc with
  | nil =>
    intro p v q w h
    rw [setNeed, lookupNeed] at h
    by_cases hq : p = q
    · rw [if_pos hq] at h
      exact Or.inl ⟨hq.symm, (Option.some.inj h).symm⟩
    · rw [if_neg hq] at h
      simp [lookupNeed] at h
  | cons kv rest ih =>
    obtain ⟨k, x⟩ := kv
    intro p v q w h
    by_cases hk : k = p
    · rw [setNeed, if_pos hk, lookupNeed] at h
      by_cases hq : k = q
      · rw [if_pos hq] at h
        exact Or.inl ⟨hq.symm.trans hk, (Option.some.inj h).symm⟩
      · rw [if_neg hq] at h
        rw [lookupNeed, if_neg hq]
        exact Or.inr h
    · rw [setNeed, if_neg hk, lookupNeed] at h
      by_cases hq : k = q
      · rw [if_pos hq] at h
        rw [lookupNeed, if_pos hq]
        exact Or.inr h
      · rw [if_neg hq] at h
        rw [lookupNeed, if_neg hq]
        exact ih p v q w h

end Modfile

namespace Modfile

theorem buildNeed_lookup_inv (req : List ModVersion) :
    ∀ (acc : List (String × String)) (q w : String),
      lookupNeed (req.foldl (fun acc m => setNeed acc m.path m.version) acc) q = some w →
      (∃ m ∈ req, m.path = q ∧ m.version = w) ∨ lookupNeed acc q = some w := by
  induction req with
  | nil => intro acc q w h; exact Or.inr h
  | cons m req ih =>
    intro acc q w h
    rcases ih (setNeed acc m.path m.version) q w h with ⟨m', hm', hp, hv⟩ | h2
    · exact Or.inl ⟨m', List.mem_cons_of_mem _ hm', hp, hv⟩
    · rcases setNeed_lookup_inv acc m.path m.version q w h2 with ⟨hq, hw⟩ | h3
      · exact Or.inl ⟨m, List.mem_cons_self _ _, hq.symm, hw.symm⟩
      · exact Or.inr h3

/-- Every value of the desired map is a version of the request list. -/
theorem buildNeed_mem (req : List ModVersion) (q w : String)
    (h : lookupNeed (buildNeed req) q = some w) :
    ∃ m ∈ req, m.path = q ∧ m.version = w := by
  rcases buildNeed_lookup_inv req [] q w h with h1 | h2
  · exact h1
  · simp [lookupNeed] at h2

theorem setNeed_keys (p v : String) :
    ∀ acc : List (String × String),
      (setNeed acc p v).map Prod.fst
        = if p ∈ acc.map Prod.fst then acc.map Prod.fst else acc.map Prod.fst ++ [p] := by
  intro acc
  induction acc with
  | nil => simp [setNeed]
  | cons kv rest ih =>
    obtain ⟨k, x⟩ := kv
    by_cases hk : k = p
    · rw [setNeed, if_pos hk]
      simp [hk]
    · rw [setNeed, if_neg hk]
      simp only [List.map_cons, ih]
      have hpk : ¬ p = k := fun hc => hk hc.symm
      by_cases hmem : p ∈ rest.map Prod.fst
      · simp [hmem, hpk]
      · simp [hmem, hpk]

theorem setNeed_keys_nodup (acc : List (String × String)) (p v : String)
    (h : (acc.map Prod.fst).Nodup) : ((setNeed acc p v).map Prod.fst).Nodup := by
  rw [setNeed_keys]
  by_cases hmem : p ∈ acc.map Prod.fst
  · rwa [if_pos hmem]
  · rw [if_neg hmem]
    simp [List.nodup_append, h, hmem]

theorem buildNeed_keys_nodup (req : List ModVersion) :
    ((buildNeed req).map Prod.fst).Nodup := by
  suffices h : ∀ acc : List (String × String), (acc.map Prod.fst).Nodup →
      ((req.foldl (fun acc m => setNeed acc m.path m.version) acc).map Prod.fst).Nodup by
    exact h [] (by simp)
  induction req with
  | nil => intro acc h; exact h
  | cons m req ih =>
    intro acc h
    exact ih _ (setNeed_keys_nodup acc m.path m.version h)

theorem eraseNeed_keys (p : String) :
    ∀ need : List (String × String),
      (eraseNeed need p).map Prod.fst = (need.map Prod.fst).filter (fun k => ¬ k = p) := by
  intro need
  induction need with
  | nil => rfl
  | cons kv rest ih =>
    obtain ⟨k, x⟩ := kv
    by_cases hk : k = p
    · rw [eraseNeed, if_pos hk]
      simp [hk, ih]
    · rw [eraseNeed, if_neg hk]
      simp [hk, ih]

theorem eraseNeed_keys_nodup (need : List (String × String)) (p : String)
    (h : (need.map Prod.fst).Nodup) : ((eraseNeed need p).map Prod.fst).Nodup := by
  rw [eraseNeed_keys]
  exact h.filter _

/-- A key of the desired map is a path of the request list. -/
theorem lookupNeed_mem_keys (need : List (String × String)) (q : String) (w : String)
    (h : lookupNeed need q = some w) : q ∈ need.map Prod.fst := by
  induction need with
  | nil => simp [lookupNeed] at h
  | cons kv rest ih =>
    obtain ⟨k, x⟩ := kv
    by_cases hk : k = q
    · simp [hk]
    · rw [lookupNeed, if_neg hk] at h
      exact List.mem_cons_of_mem _ (ih h)

end Modfile

namespace Modfile

/-- Count, within a require block's lines, those carrying this path and
version token. -/
def countLinesPV (p v : String) : List Line → Nat
  | [] => 0
  | l :: ls =>
    (if l.tokens.getD 0 "" = p ∧ l.tokens.getD 1 "" = v then 1 else 0) + countLinesPV p v ls

/-- The number of require statements (bare require lines and require
block lines) of the tree carrying this path and version token. -/
def countReqPV (p v : String) : List Expr → Nat
  | [] => 0
  | .line l :: rest =>
    (if l.tokens.headD "" = "require" ∧ l.tokens.getD 1 "" = p ∧ l.tokens.getD 2 "" = v
      then 1 else 0) + countReqPV p v rest
  | .block _ btoks lines :: rest =>
    (if btoks.headD "" = "require" then countLinesPV p v lines else 0) + countReqPV p v rest
  | .comment :: rest => countReqPV p v rest

/-- Does a require-block line for this path occur? -/
def occursLines (p : String) : List Line → Bool
  | [] => false
  | l :: ls => (l.tokens.getD 0 "" = p) || occursLines p ls

/-- Does a require statement for this path occur in the tree? -/
def occursReq (p : String) : List Expr → Bool
  | [] => false
  | .line l :: rest =>
    (l.tokens.headD "" = "require" && l.tokens.getD 1 "" = p) || occursReq p rest
  | .block _ btoks lines :: rest =>
    (btoks.headD "" = "require" && occursLines p lines) || occursReq p rest
  | .comment :: rest => occursReq p rest

/-- Well-formed statements, as the tokenizer and decoder produce them:
the tokens of a require line are present and its path token is clean
(unquoted and in no need of quoting). -/
def wfStmt : Expr → Prop
  | .line l => l.tokens.headD "" = "require" →
      (3 ≤ l.tokens.length ∧ cleanTok (l.tokens.getD 1 ""))
  | .block _ btoks lines => btoks.headD "" = "require" →
      ∀ l ∈ lines, 2 ≤ l.tokens.length ∧ cleanTok (l.tokens.getD 0 "")
  | .comment => True

end Modfile

namespace Modfile

theorem needGet_ne_lookup (need : List (String × String)) (q : String)
    (h : needGet need q ≠ "") : lookupNeed need q = some (needGet need q) := by
  unfold needGet at h
  cases hl : lookupNeed need q with
  | none => rw [hl] at h; simp at h
  | some x => simp [needGet, hl]

theorem needGet_empty_lookup (need : List (String × String)) (q : String)
    (h : ¬ needGet need q ≠ "") :
    lookupNeed need q = none ∨ lookupNeed need q = some "" := by
  unfold needGet at h
  cases hl : lookupNeed need q with
  | none => exact Or.inl rfl
  | some x =>
    rw [hl] at h
    simp at h
    exact Or.inr (by rw [h])

theorem setReqLines_count (p v : String) :
    ∀ (lines : List Line) (need : List (String × String)),
      (∀ l ∈ lines, 2 ≤ l.tokens.length ∧ cleanTok (l.tokens.getD 0 "")) →
      countLinesPV p v (setReqLines need lines).1
        = if lookupNeed need p = some v ∧ v ≠ "" ∧ occursLines p lines = true
          then 1 else 0 := by
  intro lines
  induction lines with
  | nil =>
    intro need _
    simp [setReqLines, countLinesPV, occursLines]
  | cons l ls ih =>
    intro need hwf
    obtain ⟨hlen, hcl⟩ := hwf l (List.mem_cons_self _ _)
    have hwf' : ∀ l' ∈ ls, 2 ≤ l'.tokens.length ∧ cleanTok (l'.tokens.getD 0 "") :=
      fun l' hl' => hwf l' (List.mem_cons_of_mem _ hl')
    have hps : parseString (l.tokens.getD 0 "")
        = .ok (l.tokens.getD 0 "", l.tokens.getD 0 "") := hcl
    rcases hlt : l.tokens with _ | ⟨t0, _ | ⟨t1, trest⟩⟩
    · rw [hlt] at hlen; simp at hlen
    · rw [hlt] at hlen; simp at hlen
    · rw [hlt] at hps
      simp only [List.getD_cons_zero] at hps
      rw [setReqLines, hlt]
      simp only [List.getD_cons_zero]
      rw [hps]
      dsimp only
      rw [occursLines, hlt]
      simp only [List.getD_cons_zero]
      by_cases hw : needGet need t0 ≠ ""
      · rw [if_pos hw]
        dsimp only
        have hlk : lookupNeed need t0 = some (needGet need t0) :=
          needGet_ne_lookup need t0 hw
        simp only [List.set_cons_zero, List.set_cons_succ]
        rw [countLinesPV]
        simp only [List.getD_cons_zero, List.getD_cons_succ]
        rw [ih (eraseNeed need t0) hwf']
        by_cases hpq : t0 = p
        · subst hpq
          rw [lookupNeed_erase_self]
          by_cases hv : needGet need t0 = v
          · simp [hv, hlk, hv ▸ hw]
          · have hne : ¬ (lookupNeed need t0 = some v ∧ v ≠ "" ∧
                (decide (t0 = t0) || occursLines t0 ls) = true) := by
              intro ⟨h1, _, _⟩
              rw [hlk] at h1
              exact hv (Option.some.inj h1)
            simp [hv, hne, hlk]
        · rw [lookupNeed_erase_ne need t0 p (fun hc => hpq hc.symm)]
          simp [hpq]
      · rw [if_neg hw]
        rw [ih need hwf']
        by_cases hpq : t0 = p
        · subst hpq
          have hno : ¬ (lookupNeed need t0 = some v ∧ v ≠ "") := by
            intro ⟨h1, h2⟩
            rcases needGet_empty_lookup need t0 hw with he | he
            · rw [he] at h1; exact Option.noConfusion h1
            · rw [he] at h1
              exact h2 (Option.some.inj h1).symm
          have hA : ¬ (lookupNeed need t0 = some v ∧ v ≠ "" ∧ occursLines t0 ls = true) :=
            fun ⟨h1, h2, _⟩ => hno ⟨h1, h2⟩
          have hB : ¬ (lookupNeed need t0 = some v ∧ v ≠ "" ∧
              (decide (t0 = t0) || occursLines t0 ls) = true) :=
            fun ⟨h1, h2, _⟩ => hno ⟨h1, h2⟩
          rw [if_neg hA, if_neg hB]
        · simp [hpq]

end Modfile

namespace Modfile

theorem setReqLines_need (p : String) :
    ∀ (lines : List Line) (need : List (String × String)),
      (∀ l ∈ lines, 2 ≤ l.tokens.length ∧ cleanTok (l.tokens.getD 0 "")) →
      lookupNeed (setReqLines need lines).2 p
        = if occursLines p lines = true ∧ needGet need p ≠ "" then none
          else lookupNeed need p := by
  intro lines
  induction lines with
  | nil =>
    intro need _
    simp [setReqLines, occursLines]
  | cons l ls ih =>
    intro need hwf
    obtain ⟨hlen, hcl⟩ := hwf l (List.mem_cons_self _ _)
    have hwf' : ∀ l' ∈ ls, 2 ≤ l'.tokens.length ∧ cleanTok (l'.tokens.getD 0 "") :=
      fun l' hl' => hwf l' (List.mem_cons_of_mem _ hl')
    have hps : parseString (l.tokens.getD 0 "")
        = .ok (l.tokens.getD 0 "", l.tokens.getD 0 "") := hcl
    rcases hlt : l.tokens with _ | ⟨t0, _ | ⟨t1, trest⟩⟩
    · rw [hlt] at hlen; simp at hlen
    · rw [hlt] at hlen; simp at hlen
    · rw [hlt] at hps
      simp only [List.getD_cons_zero] at hps
      rw [setReqLines, hlt]
      simp only [List.getD_cons_zero]
      rw [hps]
      dsimp only
      rw [occursLines, hlt]
      simp only [List.getD_cons_zero]
      by_cases hw : needGet need t0 ≠ ""
      · rw [if_pos hw]
        dsimp only
        rw [ih (eraseNeed need t0) hwf']
        by_cases hpq : t0 = p
        · subst hpq
          have he : needGet (eraseNeed need t0) t0 = "" := by
            unfold needGet
            rw [lookupNeed_erase_self]
            rfl
          rw [if_neg (by rw [he]; simp), lookupNeed_erase_self,
            if_pos (by simp [hw])]
        · have he : needGet (eraseNeed need t0) p = needGet need p := by
            unfold needGet
            rw [lookupNeed_erase_ne need t0 p (fun hc => hpq hc.symm)]
          rw [he, lookupNeed_erase_ne need t0 p (fun hc => hpq hc.symm)]
          simp [hpq]
      · rw [if_neg hw]
        rw [ih need hwf']
        by_cases hpq : t0 = p
        · subst hpq
          rw [if_neg (fun h => hw h.2), if_neg (fun h => hw h.2)]
        · simp [hpq]

end Modfile

namespace Modfile

theorem setReqStmts_count (p v : String) :
    ∀ (stmts : List Expr) (need : List (String × String)),
      (∀ e ∈ stmts, wfStmt e) →
      countReqPV p v (setReqStmts need stmts).1
        = if lookupNeed need p = some v ∧ v ≠ "" ∧ occursReq p stmts = true
          then 1 else 0 := by
  intro stmts
  induction stmts with
  | nil =>
    intro need _
    simp [setReqStmts, countReqPV, occursReq]
  | cons e rest ih =>
    intro need hwf
    have hwfe := hwf e (List.mem_cons_self _ _)
    have hwf' : ∀ e' ∈ rest, wfStmt e' := fun e' he' => hwf e' (List.mem_cons_of_mem _ he')
    cases e with
    | comment =>
      rw [setReqStmts]
      try dsimp only
      rw [countReqPV, occursReq, ih need hwf']
    | line l =>
      by_cases hreq : l.tokens.headD "" = "require"
      · obtain ⟨hlen, hcl⟩ := hwfe hreq
        have hps : parseString (l.tokens.getD 1 "")
            = .ok (l.tokens.getD 1 "", l.tokens.getD 1 "") := hcl
        rcases hlt : l.tokens with _ | ⟨t0, _ | ⟨t1, _ | ⟨t2, trest⟩⟩⟩
        · rw [hlt] at hlen; simp at hlen
        · rw [hlt] at hlen; simp at hlen
        · rw [hlt] at hlen; simp at hlen
        · have ht0 : t0 = "require" := by rw [hlt] at hreq; exact hreq
          rw [hlt] at hps
          simp only [List.getD_cons_zero, List.getD_cons_succ] at hps
          rw [setReqStmts, hlt, ht0]
          simp only [List.headD_cons, if_true]
          simp only [List.getD_cons_zero, List.getD_cons_succ]
          rw [hps]
          try dsimp only
          rw [occursReq, hlt, ht0]
          simp only [List.headD_cons, List.getD_cons_zero, List.getD_cons_succ]
          by_cases hw : needGet need t1 ≠ ""
          · rw [if_pos hw]
            try dsimp only
            have hlk : lookupNeed need t1 = some (needGet need t1) :=
              needGet_ne_lookup need t1 hw
            simp only [List.set_cons_zero, List.set_cons_succ]
            rw [countReqPV]
            simp only [List.headD_cons, List.getD_cons_zero, List.getD_cons_succ]
            rw [ih (eraseNeed need t1) hwf']
            by_cases hpq : t1 = p
            · subst hpq
              rw [lookupNeed_erase_self]
              by_cases hv : needGet need t1 = v
              · simp [hv, hlk, hv ▸ hw]
              · have hne : ¬ (lookupNeed need t1 = some v ∧ v ≠ "" ∧
                    (decide ((("require" : String)) = "require") && decide (t1 = t1)
                      || occursReq t1 rest) = true) := by
                  intro ⟨h1, _, _⟩
                  rw [hlk] at h1
                  exact hv (Option.some.inj h1)
                simp [hv, hne, hlk]
            · rw [lookupNeed_erase_ne need t1 p (fun hc => hpq hc.symm)]
              simp [hpq]
          · rw [if_neg hw]
            rw [ih need hwf']
            by_cases hpq : t1 = p
            · subst hpq
              have hno : ¬ (lookupNeed need t1 = some v ∧ v ≠ "") := by
                intro ⟨h1, h2⟩
                rcases needGet_empty_lookup need t1 hw with he | he
                · rw [he] at h1; exact Option.noConfusion h1
                · rw [he] at h1
                  exact h2 (Option.some.inj h1).symm
              rw [if_neg (fun h => hno ⟨h.1, h.2.1⟩), if_neg (fun h => hno ⟨h.1, h.2.1⟩)]
            · simp [hpq]
      · rw [setReqStmts]
        try dsimp only
        rw [if_neg hreq]
        try dsimp only
        rw [countReqPV, occursReq, ih need hwf']
        have hfalse : ¬ (l.tokens.headD "" = "require" ∧ l.tokens.getD 1 "" = p ∧
            l.tokens.getD 2 "" = v) := fun h => hreq h.1
        rw [if_neg hfalse]
        have hb2 : (decide (l.tokens.headD "" = "require") && decide (l.tokens.getD 1 "" = p))
            = false := by rw [decide_eq_false hreq, Bool.false_and]
        rw [hb2]
        simp only [Bool.false_or, Nat.zero_add]
    | block bpos btoks lines =>
      by_cases hb : btoks.headD "" = "require"
      · have hwfl : ∀ l ∈ lines, 2 ≤ l.tokens.length ∧ cleanTok (l.tokens.getD 0 "") :=
          hwfe hb
        rw [setReqStmts]
        try dsimp only
        rw [if_pos hb]
        try dsimp only
        have hout : countReqPV p v
            ((if (setReqLines need lines).1 = []
              then setReqStmts (setReqLines need lines).2 rest
              else (.block bpos btoks (setReqLines need lines).1 ::
                  (setReqStmts (setReqLines need lines).2 rest).1,
                (setReqStmts (setReqLines need lines).2 rest).2)).1)
            = countLinesPV p v (setReqLines need lines).1
              + countReqPV p v (setReqStmts (setReqLines need lines).2 rest).1 := by
          by_cases hemp : (setReqLines need lines).1 = []
          · rw [if_pos hemp, hemp, countLinesPV]
            simp
          · rw [if_neg hemp]
            dsimp only
            rw [countReqPV, if_pos hb]
        rw [hout]
        rw [setReqLines_count p v lines need hwfl]
        rw [ih _ hwf']
        rw [setReqLines_need p lines need hwfl]
        rw [occursReq]
        simp only [hb]
        by_cases hocc : occursLines p lines = true
        · by_cases hng : needGet need p ≠ ""
          · have hin : (if occursLines p lines = true ∧ needGet need p ≠ ""
                then (none : Option String) else lookupNeed need p) = none :=
              if_pos ⟨hocc, hng⟩
            rw [hin]
            rw [if_neg (fun h : (none : Option String) = some v ∧ v ≠ "" ∧
                occursReq p rest = true => Option.noConfusion h.1)]
            simp [hocc]
          · have hin : (if occursLines p lines = true ∧ needGet need p ≠ ""
                then (none : Option String) else lookupNeed need p) = lookupNeed need p :=
              if_neg (fun h => hng h.2)
            rw [hin]
            have hno : ¬ (lookupNeed need p = some v ∧ v ≠ "") := by
              intro ⟨h1, h2⟩
              rcases needGet_empty_lookup need p hng with he | he
              · rw [he] at h1; exact Option.noConfusion h1
              · rw [he] at h1; exact h2 (Option.some.inj h1).symm
            have hnoA : ∀ X : Prop, ¬ (lookupNeed need p = some v ∧ v ≠ "" ∧ X) :=
              fun X h => hno ⟨h.1, h.2.1⟩
            rw [if_neg (hnoA _), if_neg (hnoA _), if_neg (hnoA _)]
        · have hoccf : occursLines p lines = false := by simpa using hocc
          have hin : (if occursLines p lines = true ∧ needGet need p ≠ ""
              then (none : Option String) else lookupNeed need p) = lookupNeed need p :=
            if_neg (fun h => hocc h.1)
          rw [hin]
          rw [if_neg (fun h : lookupNeed need p = some v ∧ v ≠ "" ∧
              occursLines p lines = true => hocc h.2.2)]
          simp [hoccf]
      · rw [setReqStmts]
        try dsimp only
        rw [if_neg hb]
        try dsimp only
        rw [countReqPV, occursReq, ih need hwf']
        rw [if_neg hb]
        have hb3 : (decide (btoks.headD "" = "require") && occursLines p lines) = false := by
          rw [decide_eq_false hb, Bool.false_and]
        rw [hb3]
        simp only [Bool.false_or, Nat.zero_add]

end Modfile

namespace Modfile

theorem setReqStmts_need (p : String) :
    ∀ (stmts : List Expr) (need : List (String × String)),
      (∀ e ∈ stmts, wfStmt e) →
      lookupNeed (setReqStmts need stmts).2 p
        = if occursReq p stmts = true ∧ needGet need p ≠ "" then none
          else lookupNeed need p := by
  intro stmts
  induction stmts with
  | nil =>
    intro need _
    simp [setReqStmts, occursReq]
  | cons e rest ih =>
    intro need hwf
    have hwfe := hwf e (List.mem_cons_self _ _)
    have hwf' : ∀ e' ∈ rest, wfStmt e' := fun e' he' => hwf e' (List.mem_cons_of_mem _ he')
    cases e with
    | comment =>
      rw [setReqStmts]
      try dsimp only
      rw [occursReq, ih need hwf']
    | line l =>
      by_cases hreq : l.tokens.headD "" = "require"
      · obtain ⟨hlen, hcl⟩ := hwfe hreq
        have hps : parseString (l.tokens.getD 1 "")
            = .ok (l.tokens.getD 1 "", l.tokens.getD 1 "") := hcl
        rcases hlt : l.tokens with _ | ⟨t0, _ | ⟨t1, _ | ⟨t2, trest⟩⟩⟩
        · rw [hlt] at hlen; simp at hlen
        · rw [hlt] at hlen; simp at hlen
        · rw [hlt] at hlen; simp at hlen
        · have ht0 : t0 = "require" := by rw [hlt] at hreq; exact hreq
          rw [hlt] at hps
          simp only [List.getD_cons_zero, List.getD_cons_succ] at hps
          rw [setReqStmts, hlt, ht0]
          simp only [List.headD_cons, if_true]
          simp only [List.getD_cons_zero, List.getD_cons_succ]
          rw [hps]
          try dsimp only
          rw [occursReq, hlt, ht0]
          simp only [List.headD_cons, List.getD_cons_zero, List.getD_cons_succ]
          by_cases hw : needGet need t1 ≠ ""
          · rw [if_pos hw]
            try dsimp only
            rw [ih (eraseNeed need t1) hwf']
            by_cases hpq : t1 = p
            · subst hpq
              have he : needGet (eraseNeed need t1) t1 = "" := by
                unfold needGet
                rw [lookupNeed_erase_self]
                rfl
              rw [if_neg (by rw [he]; simp), lookupNeed_erase_self]
              rw [if_pos ⟨by simp, hw⟩]
            · have he : needGet (eraseNeed need t1) p = needGet need p := by
                unfold needGet
                rw [lookupNeed_erase_ne need t1 p (fun hc => hpq hc.symm)]
              rw [he, lookupNeed_erase_ne need t1 p (fun hc => hpq hc.symm)]
              simp only [decide_eq_false hpq, Bool.and_false, Bool.false_or]
          · rw [if_neg hw]
            rw [ih need hwf']
            by_cases hpq : t1 = p
            · subst hpq
              rw [if_neg (fun h => hw h.2), if_neg (fun h => hw h.2)]
            · simp only [decide_eq_false hpq, Bool.and_false, Bool.false_or]
      · rw [setReqStmts]
        try dsimp only
        rw [if_neg hreq]
        try dsimp only
        rw [occursReq, ih need hwf']
        have hb2 : (decide (l.tokens.headD "" = "require") && decide (l.tokens.getD 1 "" = p))
            = false := by rw [decide_eq_false hreq, Bool.false_and]
        rw [hb2]
        simp only [Bool.false_or]
    | block bpos btoks lines =>
      by_cases hb : btoks.headD "" = "require"
      · have hwfl : ∀ l ∈ lines, 2 ≤ l.tokens.length ∧ cleanTok (l.tokens.getD 0 "") :=
          hwfe hb
        rw [setReqStmts]
        try dsimp only
        rw [if_pos hb]
        try dsimp only
        have hsnd : (if (setReqLines need lines).1 = []
              then setReqStmts (setReqLines need lines).2 rest
              else (.block bpos btoks (setReqLines need lines).1 ::
                  (setReqStmts (setReqLines need lines).2 rest).1,
                (setReqStmts (setReqLines need lines).2 rest).2)).2
            = (setReqStmts (setReqLines need lines).2 rest).2 := by
          by_cases hemp : (setReqLines need lines).1 = []
          · rw [if_pos hemp]
          · rw [if_neg hemp]
        rw [hsnd]
        rw [ih _ hwf']
        rw [occursReq]
        rw [decide_eq_true hb, Bool.true_and]
        have hlkp := setReqLines_need p lines need hwfl
        by_cases hocc : occursLines p lines = true
        · by_cases hng : needGet need p ≠ ""
          · have hin : (if occursLines p lines = true ∧ needGet need p ≠ ""
                then (none : Option String) else lookupNeed need p) = none :=
              if_pos ⟨hocc, hng⟩
            have hgn1 : needGet (setReqLines need lines).2 p = "" := by
              unfold needGet
              rw [hlkp, hin]
              rfl
            rw [hgn1]
            rw [if_neg (fun h : occursReq p rest = true ∧ ("" : String) ≠ "" => h.2 rfl)]
            rw [hlkp, hin]
            have ho2 : (occursLines p lines || occursReq p rest) = true := by
              rw [hocc]
              exact Bool.true_or _
            rw [if_pos ⟨ho2, hng⟩]
          · have hin : (if occursLines p lines = true ∧ needGet need p ≠ ""
                then (none : Option String) else lookupNeed need p) = lookupNeed need p :=
              if_neg (fun h => hng h.2)
            have hgn2 : needGet (setReqLines need lines).2 p = needGet need p := by
              unfold needGet
              rw [hlkp, hin]
            rw [hgn2]
            rw [if_neg (fun h : occursReq p rest = true ∧ needGet need p ≠ "" => hng h.2)]
            rw [hlkp, hin]
            rw [if_neg (fun h : (occursLines p lines || occursReq p rest) = true ∧
                needGet need p ≠ "" => hng h.2)]
        · have hin : (if occursLines p lines = true ∧ needGet need p ≠ ""
              then (none : Option String) else lookupNeed need p) = lookupNeed need p :=
            if_neg (fun h => hocc h.1)
          have hgn2 : needGet (setReqLines need lines).2 p = needGet need p := by
            unfold needGet
            rw [hlkp, hin]
          rw [hgn2, hlkp, hin]
          have hoccf : occursLines p lines = false := by simpa using hocc
          rw [hoccf, Bool.false_or]
      · rw [setReqStmts]
        try dsimp only
        rw [if_neg hb]
        try dsimp only
        rw [occursReq, ih need hwf']
        have hb3 : (decide (btoks.headD "" = "require") && occursLines p lines) = false := by
          rw [decide_eq_false hb, Bool.false_and]
        rw [hb3]
        simp only [Bool.false_or]

end Modfile

namespace Modfile

/-- The lines the leftover loop appends (AddNewRequire per entry). -/
def appendedLines (id : Nat) : List (String × String) → List Expr
  | [] => []
  | pv :: rest => .line ⟨id, ["require", AutoQuote pv.1, pv.2]⟩ :: appendedLines (id + 1) rest

theorem foldl_addNewRequire_stmts :
    ∀ (pvs : List (String × String)) (g : GoFile),
      (pvs.foldl (fun g pv => addNewRequire g pv.1 pv.2) g).tree.stmts
        = g.tree.stmts ++ appendedLines g.nextId pvs := by
  intro pvs
  induction pvs with
  | nil => intro g; simp [appendedLines]
  | cons pv rest ih =>
    intro g
    rw [List.foldl_cons, ih]
    simp [addNewRequire, addLine, appendedLines]

theorem foldl_addNewRequire_records :
    ∀ (pvs : List (String × String)) (g : GoFile),
      (pvs.foldl (fun g pv => addNewRequire g pv.1 pv.2) g).exclude = g.exclude ∧
      (pvs.foldl (fun g pv => addNewRequire g pv.1 pv.2) g).replace = g.replace := by
  intro pvs
  induction pvs with
  | nil => intro g; exact ⟨rfl, rfl⟩
  | cons pv rest ih =>
    intro g
    rw [List.foldl_cons]
    exact ih _

theorem lookupNeed_eq_none (need : List (String × String)) (p : String)
    (h : p ∉ need.map Prod.fst) : lookupNeed need p = none := by
  cases hl : lookupNeed need p with
  | none => rfl
  | some w => exact absurd (lookupNeed_mem_keys need p w hl) h

theorem countReqPV_appendedLines (p v : String) :
    ∀ (pvs : List (String × String)) (id : Nat),
      (pvs.map Prod.fst).Nodup → (∀ pv ∈ pvs, AutoQuote pv.1 = pv.1) →
      countReqPV p v (appendedLines id pvs) = if lookupNeed pvs p = some v then 1 else 0 := by
  intro pvs
  induction pvs with
  | nil => intro id _ _; simp [appendedLines, countReqPV, lookupNeed]
  | cons pv rest ih =>
    intro id hnd hcl
    obtain ⟨hnd1, hnd2⟩ := List.nodup_cons.mp hnd
    have hq : AutoQuote pv.1 = pv.1 := hcl pv (List.mem_cons_self _ _)
    rw [appendedLines, countReqPV]
    simp only [List.headD_cons, List.getD_cons_zero, List.getD_cons_succ, hq]
    rw [ih (id + 1) hnd2 (fun x hx => hcl x (List.mem_cons_of_mem _ hx))]
    rw [lookupNeed]
    by_cases hpq : pv.1 = p
    · rw [if_pos hpq]
      have hnone : lookupNeed rest p = none :=
        lookupNeed_eq_none rest p (by rw [← hpq]; exact fun hc => hnd1 (by simpa using hc))
      rw [hnone]
      by_cases hv : pv.2 = v
      · simp [hpq, hv]
      · simp [hpq, hv, fun hc : some pv.2 = some v => hv (Option.some.inj hc)]
    · rw [if_neg hpq]
      simp [hpq]

theorem countReqPV_append (p v : String) :
    ∀ (a b : List Expr), countReqPV p v (a ++ b) = countReqPV p v a + countReqPV p v b := by
  intro a
  induction a with
  | nil => intro b; simp [countReqPV]
  | cons e rest ih =>
    intro b
    cases e with
    | line l => rw [List.cons_append, countReqPV, countReqPV, ih, Nat.add_assoc]
    | block bpos btoks lines =>
      rw [List.cons_append, countReqPV, countReqPV, ih, Nat.add_assoc]
    | comment => rw [List.cons_append, countReqPV, countReqPV, ih]

theorem eraseNeed_mem_sub (need : List (String × String)) (q : String) :
    ∀ pv ∈ eraseNeed need q, pv ∈ need := by
  induction need with
  | nil => intro pv h; exact absurd h (List.not_mem_nil pv)
  | cons kv rest ih =>
    intro pv h
    by_cases hk : kv.1 = q
    · rw [show eraseNeed (kv :: rest) q = eraseNeed rest q from by
        obtain ⟨k, x⟩ := kv; rw [eraseNeed, if_pos hk]] at h
      exact List.mem_cons_of_mem _ (ih pv h)
    · rw [show eraseNeed (kv :: rest) q = kv :: eraseNeed rest q from by
        obtain ⟨k, x⟩ := kv; rw [eraseNeed, if_neg hk]] at h
      rcases List.mem_cons.mp h with rfl | h
      · exact List.mem_cons_self _ _
      · exact List.mem_cons_of_mem _ (ih pv h)

theorem setReqLines_need_sub :
    ∀ (lines : List Line) (need : List (String × String)),
      ∀ pv ∈ (setReqLines need lines).2, pv ∈ need := by
  intro lines
  induction lines with
  | nil => intro need pv h; exact h
  | cons l ls ih =>
    intro need pv h
    rw [setReqLines] at h
    rcases hps : parseString (l.tokens.getD 0 "") with e | ⟨q, tok0⟩
    · rw [hps] at h
      exact ih need pv h
    · rw [hps] at h
      try dsimp only at h
      by_cases hw : needGet need q ≠ ""
      · rw [if_pos hw] at h
        try dsimp only at h
        exact eraseNeed_mem_sub need q pv (ih _ pv h)
      · rw [if_neg hw] at h
        exact ih need pv h

theorem setReqStmts_need_sub :
    ∀ (stmts : List Expr) (need : List (String × String)),
      ∀ pv ∈ (setReqStmts need stmts).2, pv ∈ need := by
  intro stmts
  induction stmts with
  | nil => intro need pv h; exact h
  | cons e rest ih =>
    intro need pv h
    cases e with
    | comment =>
      rw [setReqStmts] at h
      exact ih need pv h
    | line l =>
      rw [setReqStmts] at h
      try dsimp only at h
      by_cases hreq : l.tokens.headD "" = "require"
      · rw [if_pos hreq] at h
        rcases hps : parseString (l.tokens.getD 1 "") with e' | ⟨q, tok1⟩
        · rw [hps] at h
          exact ih need pv h
        · rw [hps] at h
          try dsimp only at h
          by_cases hw : needGet need q ≠ ""
          · rw [if_pos hw] at h
            try dsimp only at h
            exact eraseNeed_mem_sub need q pv (ih _ pv h)
          · rw [if_neg hw] at h
            exact ih need pv h
      · rw [if_neg hreq] at h
        exact ih need pv h
    | block bpos btoks lines =>
      rw [setReqStmts] at h
      try dsimp only at h
      by_cases hb : btoks.headD "" = "require"
      · rw [if_pos hb] at h
        try dsimp only at h
        by_cases hemp : (setReqLines need lines).1 = []
        · rw [if_pos hemp] at h
          exact setReqLines_need_sub lines need pv (ih _ pv h)
        · rw [if_neg hemp] at h
          exact setReqLines_need_sub lines need pv (ih _ pv h)
      · rw [if_neg hb] at h
        exact ih need pv h

end Modfile

namespace Modfile

theorem setReqLines_keys_nodup :
    ∀ (lines : List Line) (need : List (String × String)),
      (need.map Prod.fst).Nodup → (((setReqLines need lines).2).map Prod.fst).Nodup := by
  intro lines
  induction lines with
  | nil => intro need h; exact h
  | cons l ls ih =>
    intro need h
    rw [setReqLines]
    rcases hps : parseString (l.tokens.getD 0 "") with e | ⟨q, tok0⟩
    · exact ih need h
    · dsimp only
      by_cases hw : needGet need q ≠ ""
      · rw [if_pos hw]
        exact ih _ (eraseNeed_keys_nodup need q h)
      · rw [if_neg hw]
        exact ih need h

theorem setReqStmts_keys_nodup :
    ∀ (stmts : List Expr) (need : List (String × String)),
      (need.map Prod.fst).Nodup → (((setReqStmts need stmts).2).map Prod.fst).Nodup := by
  intro stmts
  induction stmts with
  | nil => intro need h; exact h
  | cons e rest ih =>
    intro need h
    cases e with
    | comment => rw [setReqStmts]; exact ih need h
    | line l =>
      rw [setReqStmts]
      try dsimp only
      by_cases hreq : l.tokens.headD "" = "require"
      · rw [if_pos hreq]
        rcases hps : parseString (l.tokens.getD 1 "") with e' | ⟨q, tok1⟩
        · exact ih need h
        · dsimp only
          by_cases hw : needGet need q ≠ ""
          · rw [if_pos hw]
            exact ih _ (eraseNeed_keys_nodup need q h)
          · rw [if_neg hw]
            exact ih need h
      · rw [if_neg hreq]
        exact ih need h
    | block bpos btoks lines =>
      rw [setReqStmts]
      try dsimp only
      by_cases hb : btoks.headD "" = "require"
      · rw [if_pos hb]
        try dsimp only
        by_cases hemp : (setReqLines need lines).1 = []
        · rw [if_pos hemp]
          exact ih _ (setReqLines_keys_nodup lines need h)
        · rw [if_neg hemp]
          exact ih _ (setReqLines_keys_nodup lines need h)
      · rw [if_neg hb]
        exact ih need h

theorem lookupNeed_of_mem (need : List (String × String))
    (hnd : (need.map Prod.fst).Nodup) :
    ∀ pv ∈ need, lookupNeed need pv.1 = some pv.2 := by
  induction need with
  | nil => intro pv h; exact absurd h (List.not_mem_nil pv)
  | cons kv rest ih =>
    intro pv h
    rw [List.map_cons] at hnd
    obtain ⟨hnd1, hnd2⟩ := List.nodup_cons.mp hnd
    rcases List.mem_cons.mp h with rfl | h
    · rw [lookupNeed, if_pos rfl]
    · by_cases hk : kv.1 = pv.1
      · exact absurd (hk ▸ List.mem_map_of_mem Prod.fst h) hnd1
      · rw [lookupNeed, if_neg hk]
        exact ih hnd2 pv h

theorem countLinesPV_eq_countP (p v : String) :
    ∀ lines : List Line,
      countLinesPV p v lines
        = lines.countP (fun l => decide (l.tokens.getD 0 "" = p ∧ l.tokens.getD 1 "" = v)) := by
  intro lines
  induction lines with
  | nil => rfl
  | cons l ls ih =>
    rw [countLinesPV, ih, List.countP_cons]
    by_cases hc : l.tokens.getD 0 "" = p ∧ l.tokens.getD 1 "" = v
    · rw [if_pos hc, if_pos (by simpa using hc), Nat.add_comm]
    · rw [if_neg hc, if_neg (by simpa using hc), Nat.zero_add, Nat.add_zero]

theorem countLinesPV_sortLines (p v : String) (lines : List Line) :
    countLinesPV p v (sortLines lines) = countLinesPV p v lines := by
  rw [countLinesPV_eq_countP, countLinesPV_eq_countP]
  exact (sortLines_perm lines).countP_eq _

theorem countReqPV_filterKilled_nil (p v : String) :
    ∀ stmts : List Expr, countReqPV p v (filterKilled [] stmts) = countReqPV p v stmts := by
  intro stmts
  induction stmts with
  | nil => rfl
  | cons e rest ih =>
    cases e with
    | comment => rw [filterKilled, countReqPV, countReqPV, ih]
    | line l =>
      rw [filterKilled]
      rw [if_neg (by simp : ¬ (some l.id) ∈ ([] : List (Option Nat)))]
      rw [countReqPV, countReqPV, ih]
    | block bpos btoks lines =>
      rw [filterKilled]
      have hfl : lines.filter (fun l => ¬ (some l.id) ∈ ([] : List (Option Nat))) = lines :=
        List.filter_eq_self.mpr (fun a _ => by simp)
      try dsimp only
      rw [hfl]
      by_cases hemp : lines = []
      · subst hemp
        rw [if_pos rfl, countReqPV, ih]
        simp [countLinesPV]
      · rw [if_neg hemp, countReqPV, countReqPV, ih]

theorem countReqPV_sortmap (p v : String) :
    ∀ stmts : List Expr,
      countReqPV p v (stmts.map (fun e =>
        match e with
        | .block pos btoks lines => .block pos btoks (sortLines lines)
        | e => e)) = countReqPV p v stmts := by
  intro stmts
  induction stmts with
  | nil => rfl
  | cons e rest ih =>
    cases e with
    | comment => rw [List.map_cons, countReqPV, countReqPV, ih]
    | line l => rw [List.map_cons, countReqPV, countReqPV, ih]
    | block bpos btoks lines =>
      rw [List.map_cons, countReqPV, countReqPV, ih, countLinesPV_sortLines]

theorem sortBlocks_count (g : GoFile) (hE : g.exclude = []) (hR : g.replace = [])
    (p v : String) :
    countReqPV p v (sortBlocks g).tree.stmts = countReqPV p v g.tree.stmts := by
  have hrd : (removeDups g).tree.stmts = filterKilled [] g.tree.stmts := by
    rw [removeDups]
    dsimp only
    rw [hE, hR]
    rfl
  rw [sortBlocks]
  dsimp only
  rw [hrd, countReqPV_sortmap, countReqPV_filterKilled_nil]

end Modfile

namespace Modfile

theorem exists_two_tokens (ts : List String) (h : 2 ≤ ts.length) :
    ∃ a b r, ts = a :: b :: r := by
  rcases ts with _ | ⟨a, _ | ⟨b, r⟩⟩
  · simp at h
  · simp at h
  · exact ⟨a, b, r, rfl⟩

theorem exists_three_tokens (ts : List String) (h : 3 ≤ ts.length) :
    ∃ a b c r, ts = a :: b :: c :: r := by
  rcases ts with _ | ⟨a, _ | ⟨b, _ | ⟨c, r⟩⟩⟩
  · simp at h
  · simp at h
  · simp at h
  · exact ⟨a, b, c, r, rfl⟩

theorem needGet_erase_empty (need : List (String × String)) (q p : String)
    (h : needGet need p = "") : needGet (eraseNeed need q) p = "" := by
  by_cases hq : q = p
  · subst hq
    unfold needGet
    rw [lookupNeed_erase_self]
    rfl
  · unfold needGet at h ⊢
    rw [lookupNeed_erase_ne need q p (fun hc => hq hc.symm)]
    exact h

theorem setReqLines_no_p (p : String) :
    ∀ (lines : List Line) (need : List (String × String)),
      (∀ l ∈ lines, 2 ≤ l.tokens.length ∧ cleanTok (l.tokens.getD 0 "")) →
      needGet need p = "" →
      ∀ l' ∈ (setReqLines need lines).1, l'.tokens.getD 0 "" ≠ p := by
  intro lines
  induction lines with
  | nil => intro need _ _ l' h; exact absurd h (List.not_mem_nil l')
  | cons l ls ih =>
    intro need hwf hng l' h
    obtain ⟨hlen, hcl⟩ := hwf l (List.mem_cons_self _ _)
    have hwf' : ∀ l'' ∈ ls, 2 ≤ l''.tokens.length ∧ cleanTok (l''.tokens.getD 0 "") :=
      fun l'' hl'' => hwf l'' (List.mem_cons_of_mem _ hl'')
    rw [setReqLines, hcl] at h
    dsimp only at h
    by_cases hw : needGet need (l.tokens.getD 0 "") ≠ ""
    · rw [if_pos hw] at h
      dsimp only at h
      rcases List.mem_cons.mp h with rfl | h
      · intro hc
        obtain ⟨t0, t1, ts', hts⟩ := exists_two_tokens l.tokens hlen
        rw [hts] at hc
        simp only [List.set_cons_zero, List.set_cons_succ, List.getD_cons_zero] at hc
        rw [hts] at hw
        simp only [List.getD_cons_zero] at hw
        rw [hc] at hw
        exact hw hng
      · exact ih (eraseNeed need (l.tokens.getD 0 "")) hwf'
          (needGet_erase_empty need _ p hng) l' h
    · rw [if_neg hw] at h
      exact ih need hwf' hng l' h

/-- No require statement carrying this path: a bare line is not a
require line for the path, and if the statement is a require block none
of its lines carries the path. -/
def reqStmtNotFor (p : String) : Expr → Prop
  | .line l => ¬ (l.tokens.headD "" = "require" ∧ l.tokens.getD 1 "" = p)
  | .block _ btoks lines => btoks.headD "" = "require" → ∀ l ∈ lines, l.tokens.getD 0 "" ≠ p
  | .comment => True

theorem setReqStmts_no_p (p : String) :
    ∀ (stmts : List Expr) (need : List (String × String)),
      (∀ e ∈ stmts, wfStmt e) →
      needGet need p = "" →
      ∀ e ∈ (setReqStmts need stmts).1, reqStmtNotFor p e := by
  intro stmts
  induction stmts with
  | nil => intro need _ _ e h; exact absurd h (List.not_mem_nil e)
  | cons e0 rest ih =>
    intro need hwf hng e h
    have hwf' : ∀ e' ∈ rest, wfStmt e' := fun e' he' => hwf e' (List.mem_cons_of_mem _ he')
    cases e0 with
    | comment =>
      rw [setReqStmts] at h
      rcases List.mem_cons.mp h with rfl | h
      · trivial
      · exact ih need hwf' hng e h
    | line l =>
      rw [setReqStmts] at h
      try dsimp only at h
      by_cases hreq : l.tokens.headD "" = "require"
      · rw [if_pos hreq] at h
        obtain ⟨hlen, hcl⟩ := hwf (.line l) (List.mem_cons_self _ _) hreq
        rw [hcl] at h
        try dsimp only at h
        by_cases hw : needGet need (l.tokens.getD 1 "") ≠ ""
        · rw [if_pos hw] at h
          try dsimp only at h
          rcases List.mem_cons.mp h with rfl | h
          · intro hc
            obtain ⟨t0, t1, t2, ts', hts⟩ := exists_three_tokens l.tokens hlen
            rw [hts] at hc
            simp only [List.set_cons_zero, List.set_cons_succ, List.getD_cons_zero,
              List.getD_cons_succ] at hc
            rw [hts] at hw
            simp only [List.getD_cons_succ, List.getD_cons_zero] at hw
            rw [hc.2] at hw
            exact hw hng
          · exact ih (eraseNeed need (l.tokens.getD 1 "")) hwf'
              (needGet_erase_empty need _ p hng) e h
        · rw [if_neg hw] at h
          exact ih need hwf' hng e h
      · rw [if_neg hreq] at h
        rcases List.mem_cons.mp h with rfl | h
        · exact fun hc => hreq hc.1
        · exact ih need hwf' hng e h
    | block bpos btoks lines =>
      rw [setReqStmts] at h
      try dsimp only at h
      by_cases hb : btoks.headD "" = "require"
      · rw [if_pos hb] at h
        have hwfl : ∀ l ∈ lines, 2 ≤ l.tokens.length ∧ cleanTok (l.tokens.getD 0 "") :=
          hwf (.block bpos btoks lines) (List.mem_cons_self _ _) hb
        have hng2 : needGet (setReqLines need lines).2 p = "" := by
          unfold needGet
          rw [setReqLines_need p lines need hwfl]
          by_cases hc : occursLines p lines = true ∧ needGet need p ≠ ""
          · rw [if_pos hc]; rfl
          · rw [if_neg hc]; exact hng
        try dsimp only at h
        by_cases hemp : (setReqLines need lines).1 = []
        · rw [if_pos hemp] at h
          exact ih (setReqLines need lines).2 hwf' hng2 e h
        · rw [if_neg hemp] at h
          rcases List.mem_cons.mp h with rfl | h
          · intro _
            exact setReqLines_no_p p lines need hwfl hng
          · exact ih (setReqLines need lines).2 hwf' hng2 e h
      · rw [if_neg hb] at h
        rcases List.mem_cons.mp h with rfl | h
        · exact fun hc => absurd hc hb
        · exact ih need hwf' hng e h

end Modfile

namespace Modfile

/-- SetRequire, assembled count: after the full call (pass, append loop,
sortBlocks) the number of require statements for a path/version pair is
the pass contribution plus the append contribution. -/
theorem setRequire_count (f : GoFile) (req : List ModVersion)
    (hwf : ∀ e ∈ f.tree.stmts, wfStmt e)
    (hE : f.exclude = []) (hR : f.replace = [])
    (hcl : ∀ m ∈ req, cleanTok m.path)
    (p v : String) :
    countReqPV p v ((setRequire f req).tree.stmts)
      = (if lookupNeed (buildNeed req) p = some v ∧ v ≠ "" ∧ occursReq p f.tree.stmts = true
         then 1 else 0)
        + (if lookupNeed ((setReqStmts (buildNeed req) f.tree.stmts).2) p = some v
           then 1 else 0) := by
  have hnd0 : ((buildNeed req).map Prod.fst).Nodup := buildNeed_keys_nodup req
  have hnd2 : (((setReqStmts (buildNeed req) f.tree.stmts).2).map Prod.fst).Nodup :=
    setReqStmts_keys_nodup f.tree.stmts _ hnd0
  have hclean2 : ∀ pv ∈ (setReqStmts (buildNeed req) f.tree.stmts).2,
      AutoQuote pv.1 = pv.1 := by
    intro pv hpv
    have hmem : pv ∈ buildNeed req := setReqStmts_need_sub f.tree.stmts _ pv hpv
    have hlk : lookupNeed (buildNeed req) pv.1 = some pv.2 :=
      lookupNeed_of_mem _ hnd0 pv hmem
    obtain ⟨m, hm, hmp, _⟩ := buildNeed_mem req pv.1 pv.2 hlk
    exact cleanTok_autoQuote pv.1 (hmp ▸ hcl m hm)
  unfold setRequire
  rw [sortBlocks_count _ ?hE2 ?hR2 p v]
  case hE2 =>
    rw [(foldl_addNewRequire_records _ _).1]
    exact hE
  case hR2 =>
    rw [(foldl_addNewRequire_records _ _).2]
    exact hR
  rw [foldl_addNewRequire_stmts]
  dsimp only
  rw [countReqPV_append]
  rw [setReqStmts_count p v f.tree.stmts (buildNeed req) hwf]
  rw [countReqPV_appendedLines p v _ _ hnd2 hclean2]

end Modfile

namespace Modfile

instance : DecidablePred wfStmt := fun e =>
  match e with
  | .line l => (inferInstance : Decidable (l.tokens.headD "" = "require" →
      (3 ≤ l.tokens.length ∧ cleanTok (l.tokens.getD 1 ""))))
  | .block _ btoks lines => (inferInstance : Decidable (btoks.headD "" = "require" →
      ∀ l ∈ lines, 2 ≤ l.tokens.length ∧ cleanTok (l.tokens.getD 0 "")))
  | .comment => (inferInstance : Decidable True)

/-- C2 counterexample: the path example.com/a is a key of the desired
map (mapped to the empty version), the starting tree holds a require
statement for it (the line with handle 1), yet SetRequire does not
update that statement's version token in place: the statement is removed
from the tree and a fresh line (handle 3) is appended instead. -/
theorem c2_counterexample :
    lookupNeed (buildNeed [⟨"example.com/a", ""⟩]) "example.com/a" = some "" ∧
    c10F.tree.stmts = [.line ⟨1, ["require", "example.com/a", "v1.0.0"]⟩,
                       .line ⟨2, ["module", "m"]⟩] ∧
    (setRequire c10F [⟨"example.com/a", ""⟩]).tree.stmts
      = [.line ⟨2, ["module", "m"]⟩, .line ⟨3, ["require", "example.com/a", ""]⟩] :=
  ⟨by decide, rfl, by decide⟩

/-- C2 (amended): SetRequire builds the desired map, runs the
update-or-drop pass, appends the leftover entries and finishes by
running the block sort; and when every desired version is nonempty, the
resulting tree holds exactly one require statement for every desired
path, carrying its desired version, and none for any other path or
version. Hypotheses: the require statements of the tree are well formed
as the tokenizer produces them, the file holds no exclude or replace
records, and the requested paths are clean tokens. -/
theorem c2_setRequire_amended (f : GoFile) (req : List ModVersion)
    (hwf : ∀ e ∈ f.tree.stmts, wfStmt e)
    (hE : f.exclude = []) (hR : f.replace = [])
    (hcl : ∀ m ∈ req, cleanTok m.path)
    (hv : ∀ m ∈ req, m.version ≠ "")
    (p v : String) :
    (setRequire f req
       = sortBlocks (((setReqStmts (buildNeed req) f.tree.stmts).2).foldl
           (fun g pv => addNewRequire g pv.1 pv.2)
           (GoFile.mk f.module
             (f.require.map (fun r =>
               match lookupNeed (buildNeed req) r.mod.path with
               | some w => ReqRec.mk (ModVersion.mk r.mod.path w) r.syn
               | none => r))
             f.exclude f.replace
             (FileTree.mk f.tree.name (setReqStmts (buildNeed req) f.tree.stmts).1)
             f.nextId))) ∧
    countReqPV p v ((setRequire f req).tree.stmts)
      = if lookupNeed (buildNeed req) p = some v then 1 else 0 := by
  refine ⟨rfl, ?_⟩
  rw [setRequire_count f req hwf hE hR hcl p v]
  have hkey := setReqStmts_need p f.tree.stmts (buildNeed req) hwf
  have hne : ∀ w, lookupNeed (buildNeed req) p = some w → w ≠ "" := by
    intro w hw
    obtain ⟨m, hm, _, hmv⟩ := buildNeed_mem req p w hw
    exact hmv ▸ hv m hm
  by_cases hlk : lookupNeed (buildNeed req) p = some v
  · have hvne : v ≠ "" := hne v hlk
    have hng : needGet (buildNeed req) p = v := by unfold needGet; rw [hlk]; rfl
    by_cases hocc : occursReq p f.tree.stmts = true
    · rw [if_pos ⟨hlk, hvne, hocc⟩]
      have hc : occursReq p f.tree.stmts = true ∧ needGet (buildNeed req) p ≠ "" :=
        ⟨hocc, by rw [hng]; exact hvne⟩
      rw [hkey, if_pos hc]
      rw [if_neg (fun hx : (none : Option String) = some v => Option.noConfusion hx)]
      rw [if_pos hlk]
    · rw [if_neg (fun hx : _ ∧ _ ∧ occursReq p f.tree.stmts = true => hocc hx.2.2)]
      have hc : ¬ (occursReq p f.tree.stmts = true ∧ needGet (buildNeed req) p ≠ "") :=
        fun hx => hocc hx.1
      rw [hkey, if_neg hc, if_pos hlk]
  · rw [if_neg (fun hx : lookupNeed (buildNeed req) p = some v ∧ _ => hlk hx.1)]
    rw [if_neg hlk]
    rw [hkey]
    by_cases hc : occursReq p f.tree.stmts = true ∧ needGet (buildNeed req) p ≠ ""
    · rw [if_pos hc]
      rw [if_neg (fun hx : (none : Option String) = some v => Option.noConfusion hx)]
    · rw [if_neg hc, if_neg hlk]

/-- C2 witness: two require lines for example.com/a at v1.0.0 and
v1.1.0; SetRequire with the single desired entry (example.com/a, v1.2.0)
leaves exactly one require line for the path, updated in place (same
line handle) to v1.2.0. -/
theorem c2_witness :
    countReqPV "example.com/a" "v1.2.0"
        ((setRequire c2F [⟨"example.com/a", "v1.2.0"⟩]).tree.stmts)
      = (if lookupNeed (buildNeed [⟨"example.com/a", "v1.2.0"⟩]) "example.com/a"
            = some "v1.2.0" then 1 else 0) ∧
    (setRequire c2F [⟨"example.com/a", "v1.2.0"⟩]).tree.stmts
      = [.line ⟨1, ["require", "example.com/a", "v1.2.0"]⟩] :=
  ⟨(c2_setRequire_amended c2F [⟨"example.com/a", "v1.2.0"⟩] (by decide) rfl rfl
      (by decide) (by decide) "example.com/a" "v1.2.0").2, by decide⟩

/-- C10: when the desired map of SetRequire maps a path to the empty
string, the update-or-drop pass removes every require statement for that
path from the tree (none is updated in place, because the membership
test reads the empty version as absence), the path is still a key of the
leftover map with its empty version, and after the append loop and the
block sort the tree holds exactly one require line for the path, whose
version token is the empty string. -/
theorem c10_setRequire_empty_version (f : GoFile) (req : List ModVersion)
    (hwf : ∀ e ∈ f.tree.stmts, wfStmt e)
    (hE : f.exclude = []) (hR : f.replace = [])
    (hcl : ∀ m ∈ req, cleanTok m.path)
    (p : String) (hp : lookupNeed (buildNeed req) p = some "") :
    (∀ e ∈ (setReqStmts (buildNeed req) f.tree.stmts).1, reqStmtNotFor p e) ∧
    lookupNeed ((setReqStmts (buildNeed req) f.tree.stmts).2) p = some "" ∧
    countReqPV p "" ((setRequire f req).tree.stmts) = 1 ∧
    (∀ v, v ≠ "" → countReqPV p v ((setRequire f req).tree.stmts) = 0) := by
  have hng : needGet (buildNeed req) p = "" := by unfold needGet; rw [hp]; rfl
  have hkey := setReqStmts_need p f.tree.stmts (buildNeed req) hwf
  have hno : ¬ (occursReq p f.tree.stmts = true ∧ needGet (buildNeed req) p ≠ "") :=
    fun h => h.2 hng
  refine ⟨setReqStmts_no_p p f.tree.stmts _ hwf hng, ?_, ?_, ?_⟩
  · rw [hkey, if_neg hno, hp]
  · rw [setRequire_count f req hwf hE hR hcl p ""]
    have h1 : ¬ (lookupNeed (buildNeed req) p = some "" ∧ ("" : String) ≠ ""
        ∧ occursReq p f.tree.stmts = true) := fun h => h.2.1 rfl
    rw [if_neg h1, hkey, if_neg hno, hp, if_pos rfl]
  · intro v hv
    rw [setRequire_count f req hwf hE hR hcl p v]
    have h1 : ¬ (lookupNeed (buildNeed req) p = some v ∧ v ≠ ""
        ∧ occursReq p f.tree.stmts = true) := by
      intro h
      rw [hp] at h
      exact hv (Option.some.inj h.1).symm
    have h2 : ¬ (lookupNeed ((setReqStmts (buildNeed req) f.tree.stmts).2) p = some v) := by
      rw [hkey, if_neg hno, hp]
      intro h
      exact hv (Option.some.inj h).symm
    rw [if_neg h1, if_neg h2]

/-- C10 witness: a tree with a require line for example.com/a at v1.0.0
and a module line; SetRequire with example.com/a mapped to the empty
string removes the require statement in the pass, keeps the path as a
leftover, and ends with exactly one require line for the path carrying
the empty version token. -/
theorem c10_witness :
    (∀ e ∈ (setReqStmts (buildNeed [⟨"example.com/a", ""⟩]) c10F.tree.stmts).1,
        reqStmtNotFor "example.com/a" e) ∧
    lookupNeed ((setReqStmts (buildNeed [⟨"example.com/a", ""⟩]) c10F.tree.stmts).2)
        "example.com/a" = some "" ∧
    countReqPV "example.com/a" ""
        ((setRequire c10F [⟨"example.com/a", ""⟩]).tree.stmts) = 1 ∧
    (∀ v, v ≠ "" → countReqPV "example.com/a" v
        ((setRequire c10F [⟨"example.com/a", ""⟩]).tree.stmts) = 0) :=
  c10_setRequire_empty_version c10F [⟨"example.com/a", ""⟩] (by decide) rfl rfl
    (by decide) "example.com/a" (by decide)

end Modfile
